import Mathlib

/-!
# Copit: the bounded clipboard history of `src/main.c`

A shallow embedding of the history store of `main.c` (the doubly linked list
rooted at the global `history`, bounded by the global `hist_size`) and of the
option parser that fixes `hist_size`, followed by theorems about them.

Memory model.  A pointer is an address (`Ptr`); the C null pointer is
`none : Option Ptr`.  The heap is a list of cells indexed by address: a cell is
`some node` while it is allocated and `none` once it has been freed.  `malloc`
hands out the first address past the end of the heap, so an address is never
reused.  Reading or writing through a null pointer, or through the address of a
cell that is not allocated, is the error `Err.fault`.

Only the fields `content`, `next` and `prev` of `struct history` are modelled;
`date` and `box` are used for display alone.  Calls into GTK (widgets, the
clipboard write of `pastit_callback`, `gtk_window_iconify`) do not touch the
list and are left out; what they hand to the handlers (the clipboard text, the
button label and what is read through the label pointer once its button has
been removed) is an input of the model.
-/

namespace Copit

/-! ## Data model -/

/-- Address of a heap cell. -/
abbrev Ptr := Nat

/-- The constant `HISTORY_MIN`. -/
def HISTORY_MIN : Int := 2

/-- The constant `HISTORY_MAX`. -/
def HISTORY_MAX : Int := 1024

/-- The constant `HISTORY_DEFAULT_SIZE`. -/
def HISTORY_DEFAULT_SIZE : Int := 64

/-- The node type `struct history` (fields `content`, `next`, `prev`). -/
structure history where
  content : String
  next : Option Ptr
  prev : Option Ptr
deriving DecidableEq, Repr

/-- The heap: cell `p` is `some node` when allocated, `none` when freed. -/
abbrev Mem := List (Option history)

/-- Ways in which a run of the model stops without a result: `fault` is a
dereference of a null or dangling pointer, `fuel` is a loop that used up its
iteration budget. -/
inductive Err where
  | fault
  | fuel
deriving DecidableEq, Repr

/-- Result of a modelled C function. -/
inductive Res (α : Type) where
  | ok (val : α)
  | error (e : Err)
deriving DecidableEq, Repr

/-- The globals of `main.c` that the history store uses, and the heap. -/
structure State where
  hist_size : Int
  history : Option Ptr
  mem : Mem
deriving DecidableEq, Repr

/-- What the two allocations of `history_add` (`malloc`, then `strdup`) do. -/
inductive Alloc where
  | ok
  | malloc_fails
  | strdup_fails
deriving DecidableEq, Repr

/-! ## Heap access -/

/-- Read of `*p`. -/
def deref (m : Mem) (p : Ptr) : Res history :=
  match m[p]? with
  | some (some nd) => Res.ok nd
  | _ => Res.error Err.fault

/-- The assignment `p->next = v`. -/
def set_next (m : Mem) (p : Ptr) (v : Option Ptr) : Res Mem :=
  match deref m p with
  | Res.ok nd => Res.ok (m.set p (some { nd with next := v }))
  | Res.error e => Res.error e

/-- The assignment `p->prev = v`. -/
def set_prev (m : Mem) (p : Ptr) (v : Option Ptr) : Res Mem :=
  match deref m p with
  | Res.ok nd => Res.ok (m.set p (some { nd with prev := v }))
  | Res.error e => Res.error e

/-- The assignment `p->content = v`. -/
def set_content (m : Mem) (p : Ptr) (v : String) : Res Mem :=
  match deref m p with
  | Res.ok nd => Res.ok (m.set p (some { nd with content := v }))
  | Res.error e => Res.error e

/-! ## The functions of `main.c` -/

/-- The function `history_chunk_free(chunk)`: reads `chunk->box` and
`chunk->content`, then frees the node. -/
def history_chunk_free (st : State) (chunk : Ptr) : Res State :=
  match deref st.mem chunk with
  | Res.ok _ => Res.ok { st with mem := st.mem.set chunk none }
  | Res.error e => Res.error e

/-- The loop of `history_have_entry`, `for (p = history; p; p = p->next)`, with
an iteration budget. -/
def history_have_entry_loop (m : Mem) (content : String) :
    Nat → Option Ptr → Res (Option Ptr)
  | _, none => Res.ok none
  | 0, some _ => Res.error Err.fuel
  | fuel + 1, some p =>
    match deref m p with
    | Res.ok nd =>
      if nd.content = content then Res.ok (some p)
      else history_have_entry_loop m content fuel nd.next
    | Res.error e => Res.error e

/-- The function `history_have_entry(content)`.  The loop does not write, so a
walk that visits more nodes than the heap has cells is on a cycle and never
ends in C; the budget is the number of cells. -/
def history_have_entry (st : State) (content : String) : Res (Option Ptr) :=
  history_have_entry_loop st.mem content st.mem.length st.history

/-- The function `history_delete(chunk)`. -/
def history_delete (st : State) (chunk : Ptr) : Res State :=
  if st.history = some chunk then
    -- `history->next`
    match deref st.mem chunk with
    | Res.error e => Res.error e
    | Res.ok hd =>
      match hd.next with
      | none =>
        -- `history_chunk_free(chunk); history = NULL; return;`
        match history_chunk_free st chunk with
        | Res.error e => Res.error e
        | Res.ok st1 => Res.ok { st1 with history := none }
      | some n =>
        -- `history = history->next; history->prev = NULL;`
        match set_prev st.mem n none with
        | Res.error e => Res.error e
        | Res.ok m1 => history_chunk_free { st with history := some n, mem := m1 } chunk
  else
    -- `chunk->prev->next = chunk->next;`
    match deref st.mem chunk with
    | Res.error e => Res.error e
    | Res.ok c =>
      match c.prev with
      | none => Res.error Err.fault
      | some q =>
        match set_next st.mem q c.next with
        | Res.error e => Res.error e
        | Res.ok m1 =>
          -- `if (chunk->next != NULL) chunk->next->prev = chunk->prev;`
          match deref m1 chunk with
          | Res.error e => Res.error e
          | Res.ok c1 =>
            match c1.next with
            | none => history_chunk_free { st with mem := m1 } chunk
            | some n =>
              match set_prev m1 n c1.prev with
              | Res.error e => Res.error e
              | Res.ok m2 => history_chunk_free { st with mem := m2 } chunk

/-- The capacity scan of `history_add`:
`for (h = history; h != NULL && i < hist_size; h = h->next) i++;`
returning the final `h`.  `i` only grows, so at most `hist_size - i`
iterations run; the first argument is that budget.  `i` stays at most
`hist_size`, so the `int` counter does not overflow. -/
def history_add_scan (m : Mem) (hist_size : Int) :
    Nat → Option Ptr → Int → Res (Option Ptr)
  | _, none, _ => Res.ok none
  | 0, some p, i => if i < hist_size then Res.error Err.fuel else Res.ok (some p)
  | fuel + 1, some p, i =>
    if i < hist_size then
      match deref m p with
      | Res.ok nd => history_add_scan m hist_size fuel nd.next (i + 1)
      | Res.error e => Res.error e
    else Res.ok (some p)

/-- The call `dlist_add(&history, new)`.  The helper reads the global `history`
for `new->next` and `*dlist` elsewhere; at its only call site both are the
global `history`. -/
def dlist_add (st : State) (new : Ptr) : Res State :=
  -- `new->prev = NULL; new->next = NULL;`
  match set_prev st.mem new none with
  | Res.error e => Res.error e
  | Res.ok m1 =>
    match set_next m1 new none with
    | Res.error e => Res.error e
    | Res.ok m2 =>
      match st.history with
      | none => Res.ok { st with history := some new, mem := m2 }
      | some hd =>
        -- `new->next = history; (*dlist)->prev = new;`
        match set_next m2 new (some hd) with
        | Res.error e => Res.error e
        | Res.ok m3 =>
          match set_prev m3 hd (some new) with
          | Res.error e => Res.error e
          | Res.ok m4 => Res.ok { st with history := some new, mem := m4 }

/-- The eviction step of `history_add`, run when the scan stopped on a node
`h`: `h->prev->next = NULL; history_chunk_free(h);`. -/
def history_add_evict (st : State) (h : Ptr) : Res State :=
  match deref st.mem h with
  | Res.error e => Res.error e
  | Res.ok nd =>
    match nd.prev with
    | none => Res.error Err.fault
    | some q =>
      match set_next st.mem q none with
      | Res.error e => Res.error e
      | Res.ok m1 => history_chunk_free { st with mem := m1 } h

/-- The second half of `history_add`: `h = malloc(...)`, `h->content =
strdup(content)`, `dlist_add(&history, h)`, with the two early `return NULL`.
The fields of a fresh node are indeterminate in C; they are written before they
are read, and the model starts them as the empty string and null. -/
def history_add_new (st : State) (content : String) (a : Alloc) :
    Res (State × Option Ptr) :=
  match a with
  | Alloc.malloc_fails => Res.ok (st, none)
  | Alloc.strdup_fails =>
    -- the node was allocated and is released by `xfree(h)`
    Res.ok ({ st with mem := st.mem ++ [none] }, none)
  | Alloc.ok =>
    let new := st.mem.length
    let m1 := st.mem ++ [some { content := "", next := none, prev := none }]
    match set_content m1 new content with
    | Res.error e => Res.error e
    | Res.ok m2 =>
      match dlist_add { st with mem := m2 } new with
      | Res.error e => Res.error e
      | Res.ok st2 => Res.ok (st2, some new)

/-- The function `history_add(content)`: the new state and the returned
pointer. -/
def history_add (st : State) (content : String) (a : Alloc) :
    Res (State × Option Ptr) :=
  match history_add_scan st.mem st.hist_size (st.hist_size - 1).toNat st.history 1 with
  | Res.error e => Res.error e
  | Res.ok none => history_add_new st content a
  | Res.ok (some h) =>
    match history_add_evict st h with
    | Res.error e => Res.error e
    | Res.ok st1 => history_add_new st1 content a

/-- The handler `copit_callback`: `text` is what `gtk_clipboard_wait_for_text`
returned (`none` for `NULL`). -/
def copit_callback (st : State) (text : Option String) (a : Alloc) : Res State :=
  match text with
  | none => Res.ok st
  | some t =>
    if t = "" then Res.ok st
    else
      match history_have_entry st t with
      | Res.error e => Res.error e
      | Res.ok (some _) => Res.ok st
      | Res.ok none =>
        match history_add st t a with
        | Res.error e => Res.error e
        | Res.ok r => Res.ok r.1

/-- The handler `pastit_callback`.  `label` is the text behind the pointer that
`gtk_button_get_label` returns, as `history_have_entry(label)` reads it.  The
pointer is into storage owned by the clicked button; the button is inside the
box of the entry, and `history_delete` has that box removed from `hist_box`
(`gtk_container_remove` in `history_chunk_free`) before `history_add(label)`
copies the text with `strdup`.  The program keeps no reference to the box, so
the source does not fix what `strdup` finds there; `readback` is that text,
supplied by the environment (`readback = label` when the storage is
untouched). -/
def pastit_callback (st : State) (label : String) (readback : String) (a : Alloc) :
    Res State :=
  match history_have_entry st label with
  | Res.error e => Res.error e
  | Res.ok none => Res.ok st
  | Res.ok (some h) =>
    match history_delete st h with
    | Res.error e => Res.error e
    | Res.ok st1 =>
      match history_add st1 readback a with
      | Res.error e => Res.error e
      | Res.ok r => Res.ok r.1

/-- The handler `delete_history_entry_callback`: `data` is the node bound to the
button. -/
def delete_history_entry_callback (st : State) (data : Ptr) : Res State :=
  history_delete st data

/-- The state in which `gtk_main` starts: no entry, nothing allocated. -/
def init (hist_size : Int) : State :=
  { hist_size := hist_size, history := none, mem := [] }

/-! ## The list a heap represents -/

/-- The segment predicate `seg m prev cur l stop`: following `next` from `cur`
visits exactly the nodes of `l` (address and content, head first), every node's
`prev` is the address of the node before it (`prev` for the first node), and
the `next` of the last node is `stop` (`cur = stop` when `l` is empty). -/
def seg (m : Mem) : Option Ptr → Option Ptr → List (Ptr × String) → Option Ptr → Prop
  | _, cur, [], stop => cur = stop
  | prev, cur, e :: rest, stop =>
    cur = some e.1 ∧
      ∃ nd, deref m e.1 = Res.ok nd ∧ nd.content = e.2 ∧ nd.prev = prev ∧
        seg m (some e.1) nd.next rest stop

/-- The representation predicate `Rep st l`: the global `history` heads a
well-formed, null-terminated doubly linked list whose nodes are, head to tail,
the entries `l`. -/
def Rep (st : State) (l : List (Ptr × String)) : Prop :=
  seg st.mem none st.history l none

/-- Walk along `next` collecting address and content, with a budget. -/
def walk (m : Mem) : Nat → Option Ptr → List (Ptr × String)
  | _, none => []
  | 0, some _ => []
  | fuel + 1, some p =>
    match deref m p with
    | Res.ok nd => (p, nd.content) :: walk m fuel nd.next
    | Res.error _ => []

/-- The entries reachable from `history`, head first. -/
def entries (st : State) : List (Ptr × String) :=
  walk st.mem st.mem.length st.history

/-- Address of the last node of `l`, or `prev` when `l` is empty. -/
def lastPtr (prev : Option Ptr) (l : List (Ptr × String)) : Option Ptr :=
  match l.getLast? with
  | none => prev
  | some e => some e.1

/-- Deciding `seg` on concrete heaps and lists. -/
def seg_dec (m : Mem) : (prev cur : Option Ptr) → (l : List (Ptr × String)) →
    (stop : Option Ptr) → Decidable (seg m prev cur l stop)
  | _, cur, [], stop => inferInstanceAs (Decidable (cur = stop))
  | prev, cur, e :: rest, stop =>
    match hd : deref m e.1 with
    | Res.error _ => isFalse (fun h => by
        obtain ⟨_, nd, h1, _⟩ := h
        rw [hd] at h1
        cases h1)
    | Res.ok nd =>
      if h1 : cur = some e.1 ∧ nd.content = e.2 ∧ nd.prev = prev then
        match seg_dec m (some e.1) nd.next rest stop with
        | isTrue h2 => isTrue ⟨h1.1, nd, hd, h1.2.1, h1.2.2, h2⟩
        | isFalse h2 => isFalse (fun h => by
            obtain ⟨_, nd1, h3, _, _, h4⟩ := h
            rw [hd] at h3
            cases h3
            exact h2 h4)
      else isFalse (fun h => by
        obtain ⟨h3, nd1, h4, h5, h6, _⟩ := h
        rw [hd] at h4
        cases h4
        exact h1 ⟨h3, h5, h6⟩)

instance (m : Mem) (prev cur : Option Ptr) (l : List (Ptr × String)) (stop : Option Ptr) :
    Decidable (seg m prev cur l stop) :=
  seg_dec m prev cur l stop

instance (st : State) (l : List (Ptr × String)) : Decidable (Rep st l) :=
  seg_dec st.mem none st.history l none

/-! ## Events of the GTK main loop -/

/-- The signals that reach the history store, with what the environment
supplies to the handler. -/
inductive Event where
  /-- The `owner-change` signal of the clipboard, handled by `copit_callback`. -/
  | owner_change (text : Option String) (a : Alloc)
  /-- The `clicked` signal of a text button, handled by `pastit_callback`:
  the label of the button, and what is read through the label pointer after
  the box of the button has been removed. -/
  | clicked_text (label : String) (readback : String) (a : Alloc)
  /-- The `clicked` signal of a delete button, handled by
  `delete_history_entry_callback` with the node the button was created for. -/
  | clicked_delete (data : Ptr)
deriving DecidableEq, Repr

/-- The handler connected to each signal. -/
def handle (st : State) : Event → Res State
  | Event.owner_change text a => copit_callback st text a
  | Event.clicked_text label readback a => pastit_callback st label readback a
  | Event.clicked_delete data => delete_history_entry_callback st data

/-- Whether the event can occur in `st`: a delete button exists only for a node
that is in the list. -/
def enabled (st : State) : Event → Bool
  | Event.clicked_delete data => decide (data ∈ (entries st).map Prod.fst)
  | _ => true

/-- Handling a sequence of events in order, stopping at the first error. -/
def run (st : State) : List Event → Res State
  | [] => Res.ok st
  | ev :: evs =>
    match handle st ev with
    | Res.ok st1 => run st1 evs
    | Res.error e => Res.error e

/-- Whether each event of the sequence can occur in the state in which it
arrives.  Nothing is asked of the events after a handler error. -/
def deliverable (st : State) : List Event → Bool
  | [] => true
  | ev :: evs =>
    enabled st ev &&
      match handle st ev with
      | Res.ok st1 => deliverable st1 evs
      | Res.error _ => true

/-- Whether the event leaves the label storage untouched: a selection reads
back the label it started from. -/
def label_kept : Event → Bool
  | Event.clicked_text label readback _ => decide (readback = label)
  | _ => true

/-! ## Concrete states -/

/-- The `owner-change` event for a clipboard holding `t`, all allocations
succeeding. -/
def copy (t : String) : Event :=
  Event.owner_change (some t) Alloc.ok

/-- Capacity 3 after the copies "a", "b", "c": the list (c, b, a). -/
def st_cba : State :=
  { hist_size := 3
    history := some 2
    mem := [some { content := "a", next := none, prev := some 1 },
            some { content := "b", next := some 0, prev := some 2 },
            some { content := "c", next := some 1, prev := none }] }

/-- Six copies into capacity 3, a selection that reads back its label, a
deletion, an empty clipboard, a copy whose allocation fails, a selection that
reads back another text, and two more copies. -/
def busy_trace : List Event :=
  [copy "a", copy "b", copy "c", copy "d", copy "b", copy "e",
   Event.clicked_text "c" "c" Alloc.ok, Event.clicked_delete 4,
   Event.owner_change none Alloc.ok, Event.owner_change (some "f") Alloc.malloc_fails,
   Event.clicked_text "d" "c" Alloc.ok, copy "g", copy "h"]

/-- Copies of texts seen before, selections that read back their label and a
deletion, capacity 2. -/
def repeat_trace : List Event :=
  [copy "x", copy "x", copy "y", Event.clicked_text "x" "x" Alloc.ok, copy "y",
   Event.clicked_text "y" "y" Alloc.strdup_fails, copy "z", copy "x",
   Event.clicked_delete 2, copy "z"]

/-- Capacity 3: the copies "a", "b", "c", then a click on the text button of
"b" where the text read through the label pointer, after the box of the button
was removed, is "c". -/
def stale_label_trace : List Event :=
  [copy "a", copy "b", copy "c", Event.clicked_text "b" "c" Alloc.ok]

/-- Capacity 3: the copies "a", "b", "c", then clicks on the text buttons of
"a" and of "b", each time with an empty text read through the label pointer. -/
def stale_empty_trace : List Event :=
  [copy "a", copy "b", copy "c", Event.clicked_text "a" "" Alloc.ok,
   Event.clicked_text "b" "" Alloc.ok]

/-! ## Invariant of the store -/

/-- The properties of a list of entries that the handlers maintain as long as
every selection reads back its label: pairwise different contents, none of them
empty. -/
def Good (l : List (Ptr × String)) : Prop :=
  (l.map Prod.snd).Nodup ∧ ∀ c ∈ l.map Prod.snd, c ≠ ""

/-! ## Command-line options -/

/-- The values of `orientation` that the parser assigns. -/
inductive Orientation where
  | GTK_ORIENTATION_HORIZONTAL
  | GTK_ORIENTATION_VERTICAL
deriving DecidableEq, Repr

/-- The flag `OPT_ICONIFY_DISABLE`. -/
def OPT_ICONIFY_DISABLE : Nat := 1

/-- The constant `WINDOW_DEFAULT_BG_COLOR`. -/
def WINDOW_DEFAULT_BG_COLOR : String := "#edbb99"

/-- The status `EXIT_SUCCESS`. -/
def EXIT_SUCCESS : Int := 0

/-- The status `EXIT_FAILURE`. -/
def EXIT_FAILURE : Int := 1

/-- The globals that `parse_program_options` writes. -/
structure Config where
  options : Nat
  orientation : Orientation
  hist_size : Int
  window_bg_color : String
deriving DecidableEq, Repr

/-- The initial values of those globals. -/
def Config.default : Config :=
  { options := 0
    orientation := Orientation.GTK_ORIENTATION_VERTICAL
    hist_size := HISTORY_DEFAULT_SIZE
    window_bg_color := WINDOW_DEFAULT_BG_COLOR }

/-- One result of `getopt_long` over `"hvHVis:c:"`: the option found, with its
argument for `-s` and `-c`; `other` is a return value that the `switch` sends
to `default`. -/
inductive Opt where
  | h
  | v
  | H
  | V
  | i
  | s (optarg : String)
  | c (optarg : String)
  | other
deriving DecidableEq, Repr

/-- How `parse_program_options` ends: a call of `exit`, or a return to `main`
with the globals set. -/
inductive Outcome where
  | exit (status : Int)
  | returns (cfg : Config)
deriving DecidableEq, Repr

/-- The C library predicate `isspace` in the "C" locale. -/
def isspace (ch : Char) : Bool :=
  ch.toNat = 32 || (9 ≤ ch.toNat && ch.toNat ≤ 13)

/-- The C library function `strtol(nptr, &endptr, 10)` for a `long` of
`long_bits` bits, as ISO C specifies it: white space is skipped, an optional
sign and the longest run of decimal digits are read, the value is the number
they denote when it is representable and `LONG_MIN` or `LONG_MAX` otherwise;
with no digit the value is 0 and `endptr` is `nptr`.  The result is the value
and the text `endptr` points to. -/
def strtol (long_bits : Nat) (nptr : List Char) : Int × List Char :=
  let body := nptr.dropWhile isspace
  let neg := body.head? = some '-'
  let rest := if body.head? = some '-' ∨ body.head? = some '+' then body.tail else body
  let digits := rest.takeWhile Char.isDigit
  if digits = [] then (0, nptr)
  else
    let mag : Int := digits.foldl (fun acc d => 10 * acc + ((d.toNat : Int) - 48)) 0
    let val : Int := if neg then -mag else mag
    let long_min : Int := -(2 ^ (long_bits - 1))
    let long_max : Int := 2 ^ (long_bits - 1) - 1
    (max long_min (min long_max val), rest.dropWhile Char.isDigit)

/-- The conversion `(int) x` of a `long` to a 32-bit `int` (reduction modulo
2^32 into the range of `int`, as GCC and Clang define it). -/
def long_to_int (x : Int) : Int :=
  (x + 2 ^ 31) % 2 ^ 32 - 2 ^ 31

/-- The `do ... while (current_arg != -1)` loop of `parse_program_options` over
the successive results of `getopt_long`, followed by the range check on
`hist_size`.  `usage` and `version` end the process with `EXIT_SUCCESS`. -/
def parse_program_options_from (long_bits : Nat) : Config → List Opt → Outcome
  | cfg, [] =>
    if cfg.hist_size < HISTORY_MIN ∨ cfg.hist_size > HISTORY_MAX then
      Outcome.exit EXIT_FAILURE
    else Outcome.returns cfg
  | cfg, opt :: opts =>
    match opt with
    | Opt.h => Outcome.exit EXIT_SUCCESS
    | Opt.v => Outcome.exit EXIT_SUCCESS
    | Opt.H =>
      parse_program_options_from long_bits
        { cfg with orientation := Orientation.GTK_ORIENTATION_HORIZONTAL } opts
    | Opt.V =>
      parse_program_options_from long_bits
        { cfg with orientation := Orientation.GTK_ORIENTATION_VERTICAL } opts
    | Opt.i =>
      parse_program_options_from long_bits
        { cfg with options := cfg.options ||| OPT_ICONIFY_DISABLE } opts
    | Opt.s optarg =>
      -- `hist_size = (int) strtol(optarg, &err, 10); if (err && *err) exit(...)`
      let r := strtol long_bits optarg.toList
      if r.2 ≠ [] then Outcome.exit EXIT_FAILURE
      else parse_program_options_from long_bits { cfg with hist_size := long_to_int r.1 } opts
    | Opt.c optarg =>
      parse_program_options_from long_bits { cfg with window_bg_color := optarg } opts
    | Opt.other => parse_program_options_from long_bits cfg opts

/-- The function `parse_program_options(argc, argv)`, given what `getopt_long` finds in
`argv`. -/
def parse_program_options (long_bits : Nat) (opts : List Opt) : Outcome :=
  parse_program_options_from long_bits Config.default opts

/-- The text of a decimal integer: a minus sign when `neg`, then the digits. -/
def decimal_text (neg : Bool) (digits : List Char) : List Char :=
  (if neg then ['-'] else []) ++ digits

/-- The integer that `decimal_text neg digits` denotes. -/
def decimal_value (neg : Bool) (digits : List Char) : Int :=
  let mag : Int := digits.foldl (fun acc d => 10 * acc + ((d.toNat : Int) - 48)) 0
  if neg then -mag else mag

/-! ## Heap lemmas -/

theorem deref_lt {m : Mem} {p : Ptr} {nd : history} (h : deref m p = Res.ok nd) :
    p < m.length := by
  unfold deref at h
  by_contra hlt
  have : m[p]? = none := List.getElem?_eq_none (Nat.le_of_not_lt hlt)
  simp [this] at h

theorem deref_eq_ok {m : Mem} {p : Ptr} {nd : history} :
    deref m p = Res.ok nd ↔ m[p]? = some (some nd) := by
  unfold deref
  split
  · rename_i x h
    simp [h]
  · rename_i h
    constructor
    · intro h1
      cases h1
    · intro h1
      exact absurd h1 (h nd)

theorem deref_set_ne {m : Mem} {p q : Ptr} (v : Option history) (h : q ≠ p) :
    deref (m.set q v) p = deref m p := by
  unfold deref
  rw [List.getElem?_set_ne h]

theorem deref_set_eq {m : Mem} {p : Ptr} (nd : history) (h : p < m.length) :
    deref (m.set p (some nd)) p = Res.ok nd := by
  unfold deref
  rw [List.getElem?_set_self h]

theorem deref_append_new (m : Mem) (nd : history) :
    deref (m ++ [some nd]) m.length = Res.ok nd := by
  rw [deref_eq_ok, List.getElem?_concat_length]

theorem set_next_eq {m : Mem} {p : Ptr} {nd : history} (v : Option Ptr)
    (h : deref m p = Res.ok nd) :
    set_next m p v = Res.ok (m.set p (some { nd with next := v })) := by
  simp [set_next, h]

theorem set_prev_eq {m : Mem} {p : Ptr} {nd : history} (v : Option Ptr)
    (h : deref m p = Res.ok nd) :
    set_prev m p v = Res.ok (m.set p (some { nd with prev := v })) := by
  simp [set_prev, h]

theorem set_content_eq {m : Mem} {p : Ptr} {nd : history} (v : String)
    (h : deref m p = Res.ok nd) :
    set_content m p v = Res.ok (m.set p (some { nd with content := v })) := by
  simp [set_content, h]

/-! ## Segment lemmas -/

theorem seg_addr_lt {m : Mem} {l : List (Ptr × String)} :
    ∀ {prev cur stop : Option Ptr}, seg m prev cur l stop →
      ∀ a ∈ l.map Prod.fst, a < m.length := by
  induction l with
  | nil => intro _ _ _ _ a ha; simp at ha
  | cons e rest ih =>
    intro prev cur stop h a ha
    obtain ⟨_, nd, hd, _, _, hrest⟩ := h
    rcases List.mem_cons.mp ha with h1 | h1
    · subst h1
      exact deref_lt hd
    · exact ih hrest a h1

theorem seg_frame {m m1 : Mem} {l : List (Ptr × String)} :
    ∀ {prev cur stop : Option Ptr},
      (∀ a ∈ l.map Prod.fst, deref m1 a = deref m a) →
      seg m prev cur l stop → seg m1 prev cur l stop := by
  induction l with
  | nil => intro _ _ _ _ h; exact h
  | cons e rest ih =>
    intro prev cur stop hfr h
    obtain ⟨hc, nd, hd, h1, h2, hrest⟩ := h
    refine ⟨hc, nd, ?_, h1, h2, ih (fun a ha => hfr a ?_) hrest⟩
    · rw [hfr e.1 (by simp)]
      exact hd
    · simp only [List.map_cons, List.mem_cons]
      exact Or.inr ha

theorem lastPtr_cons (prev : Option Ptr) (e : Ptr × String) (l : List (Ptr × String)) :
    lastPtr prev (e :: l) = lastPtr (some e.1) l := by
  cases l with
  | nil => rfl
  | cons x xs =>
    unfold lastPtr
    rw [List.getLast?_cons_cons]
    cases hx : (x :: xs).getLast? with
    | none => simp at hx
    | some y => rfl

theorem lastPtr_append_singleton (prev : Option Ptr) (l : List (Ptr × String))
    (e : Ptr × String) : lastPtr prev (l ++ [e]) = some e.1 := by
  simp [lastPtr]

theorem seg_append {m : Mem} {l1 l2 : List (Ptr × String)} :
    ∀ {prev cur stop : Option Ptr},
      seg m prev cur (l1 ++ l2) stop ↔
        ∃ mid, seg m prev cur l1 mid ∧ seg m (lastPtr prev l1) mid l2 stop := by
  induction l1 with
  | nil =>
    intro prev cur stop
    constructor
    · intro h
      exact ⟨cur, rfl, h⟩
    · rintro ⟨mid, h1, h2⟩
      have : cur = mid := h1
      subst this
      exact h2
  | cons e rest ih =>
    intro prev cur stop
    rw [List.cons_append, lastPtr_cons]
    constructor
    · rintro ⟨hc, nd, hd, h1, h2, hrest⟩
      obtain ⟨mid, h3, h4⟩ := ih.mp hrest
      exact ⟨mid, ⟨hc, nd, hd, h1, h2, h3⟩, h4⟩
    · rintro ⟨mid, ⟨hc, nd, hd, h1, h2, h3⟩, h4⟩
      exact ⟨hc, nd, hd, h1, h2, ih.mpr ⟨mid, h3, h4⟩⟩

theorem seg_length_det {m : Mem} {l1 : List (Ptr × String)} :
    ∀ {l2 : List (Ptr × String)} {p1 p2 cur : Option Ptr},
      seg m p1 cur l1 none → seg m p2 cur l2 none → l1.length = l2.length := by
  induction l1 with
  | nil =>
    intro l2 p1 p2 cur h1 h2
    have hc : cur = none := h1
    cases l2 with
    | nil => rfl
    | cons e rest =>
      obtain ⟨hc2, _⟩ := h2
      rw [hc] at hc2
      cases hc2
  | cons e rest ih =>
    intro l2 p1 p2 cur h1 h2
    obtain ⟨hc, nd, hd, _, _, hrest⟩ := h1
    cases l2 with
    | nil =>
      have hc2 : cur = none := h2
      rw [hc] at hc2
      cases hc2
    | cons e2 rest2 =>
      obtain ⟨hc2, nd2, hd2, _, _, hrest2⟩ := h2
      have he : e.1 = e2.1 := by
        rw [hc] at hc2
        exact Option.some.inj hc2
      rw [← he, hd] at hd2
      cases hd2
      simp only [List.length_cons]
      rw [ih hrest (he ▸ hrest2)]

theorem seg_nodup {m : Mem} {l : List (Ptr × String)} :
    ∀ {prev cur : Option Ptr}, seg m prev cur l none → (l.map Prod.fst).Nodup := by
  induction l with
  | nil => intro _ _ _; simp
  | cons e rest ih =>
    intro prev cur h
    have h0 := h
    obtain ⟨hc, nd, hd, _, _, hrest⟩ := h
    rw [List.map_cons, List.nodup_cons]
    refine ⟨?_, ih hrest⟩
    intro hmem
    obtain ⟨x, hx, hx1⟩ := List.mem_map.mp hmem
    obtain ⟨r1, r2, hr⟩ := List.append_of_mem hx
    rw [hr] at hrest
    obtain ⟨mid, _, hs2⟩ := seg_append.mp hrest
    have hmid : mid = cur := by
      obtain ⟨hm, _⟩ := hs2
      rw [hm, hc, hx1]
    rw [hmid] at hs2
    have hlen := seg_length_det h0 hs2
    rw [hr] at hlen
    simp at hlen
    omega

theorem seg_length_le {m : Mem} {l : List (Ptr × String)} {prev cur : Option Ptr}
    (h : seg m prev cur l none) : l.length ≤ m.length := by
  have hnd := seg_nodup h
  have hlt := seg_addr_lt h
  have hsub : (l.map Prod.fst).toFinset ⊆ Finset.range m.length := by
    intro a ha
    rw [List.mem_toFinset] at ha
    exact Finset.mem_range.mpr (hlt a ha)
  have hcard := Finset.card_le_card hsub
  rw [List.toFinset_card_of_nodup hnd, Finset.card_range, List.length_map] at hcard
  exact hcard

/-! ## The loops on a represented list -/

theorem history_have_entry_loop_seg {m : Mem} (t : String) {l : List (Ptr × String)} :
    ∀ {prev cur : Option Ptr} (fuel : Nat), seg m prev cur l none → l.length ≤ fuel →
      history_have_entry_loop m t fuel cur =
        Res.ok ((l.find? (fun e => decide (e.2 = t))).map Prod.fst) := by
  induction l with
  | nil =>
    intro prev cur fuel h _
    have hc : cur = none := h
    subst hc
    cases fuel <;> simp [history_have_entry_loop]
  | cons e rest ih =>
    intro prev cur fuel h hlen
    obtain ⟨hc, nd, hd, h1, _, hrest⟩ := h
    subst hc
    cases fuel with
    | zero => simp at hlen
    | succ f =>
      simp only [history_have_entry_loop, hd]
      by_cases ht : nd.content = t
      · have : e.2 = t := by rw [← h1]; exact ht
        simp [ht, List.find?_cons, this]
      · have : ¬ e.2 = t := by rw [← h1]; exact ht
        simp only [ht, if_false, List.find?_cons, this, decide_False]
        exact ih f hrest (by simpa using hlen)

theorem history_add_scan_seg {m : Mem} (n : Int) {l : List (Ptr × String)} :
    ∀ {prev cur : Option Ptr} (fuel : Nat) (i : Int), seg m prev cur l none →
      n ≤ fuel + i →
      history_add_scan m n fuel cur i = Res.ok ((l[(n - i).toNat]?).map Prod.fst) := by
  induction l with
  | nil =>
    intro prev cur fuel i h _
    have hc : cur = none := h
    subst hc
    cases fuel <;> simp [history_add_scan]
  | cons e rest ih =>
    intro prev cur fuel i h hle
    obtain ⟨hc, nd, hd, _, _, hrest⟩ := h
    subst hc
    by_cases hi : i < n
    · cases fuel with
      | zero =>
        simp at hle
        omega
      | succ f =>
        simp only [history_add_scan, hi, if_true, hd]
        rw [ih f (i + 1) hrest (by push_cast at hle ⊢; omega)]
        have hk : (n - i).toNat = (n - (i + 1)).toNat + 1 := by omega
        rw [hk, List.getElem?_cons_succ]
    · have hk : (n - i).toNat = 0 := by omega
      rw [hk]
      cases fuel <;> simp [history_add_scan, hi]

theorem walk_seg {m : Mem} {l : List (Ptr × String)} :
    ∀ {prev cur : Option Ptr} (fuel : Nat), seg m prev cur l none → l.length ≤ fuel →
      walk m fuel cur = l := by
  induction l with
  | nil =>
    intro prev cur fuel h _
    have hc : cur = none := h
    subst hc
    cases fuel <;> simp [walk]
  | cons e rest ih =>
    intro prev cur fuel h hlen
    obtain ⟨hc, nd, hd, h1, _, hrest⟩ := h
    subst hc
    cases fuel with
    | zero => simp at hlen
    | succ f =>
      simp only [walk, hd]
      rw [ih f hrest (by simpa using hlen), h1]

theorem entries_eq {st : State} {l : List (Ptr × String)} (h : Rep st l) :
    entries st = l :=
  walk_seg st.mem.length h (seg_length_le h)

theorem history_have_entry_eq {st : State} {l : List (Ptr × String)} (t : String)
    (h : Rep st l) :
    history_have_entry st t =
      Res.ok ((l.find? (fun e => decide (e.2 = t))).map Prod.fst) :=
  history_have_entry_loop_seg t st.mem.length h (seg_length_le h)

theorem find_none_of_absent {l : List (Ptr × String)} {t : String}
    (h : t ∉ l.map Prod.snd) : l.find? (fun e => decide (e.2 = t)) = none := by
  rw [List.find?_eq_none]
  intro e he
  simp only [decide_eq_true_eq]
  intro h1
  exact h (List.mem_map.mpr ⟨e, he, h1⟩)

theorem find_some_of_present {l : List (Ptr × String)} {t : String}
    (h : t ∈ l.map Prod.snd) :
    ∃ l1 a l2, l = l1 ++ (a, t) :: l2 ∧ t ∉ l1.map Prod.snd ∧
      l.find? (fun e => decide (e.2 = t)) = some (a, t) := by
  induction l with
  | nil => simp at h
  | cons e rest ih =>
    by_cases he : e.2 = t
    · refine ⟨[], e.1, rest, ?_, by simp, ?_⟩
      · rw [← he]; rfl
      · rw [List.find?_cons]
        simp only [he, decide_True]
        rw [← he]
    · have hr : t ∈ rest.map Prod.snd := by
        rcases List.mem_cons.mp h with h1 | h1
        · exact absurd h1.symm he
        · exact h1
      obtain ⟨l1, a, l2, h1, h2, h3⟩ := ih hr
      refine ⟨e :: l1, a, l2, by rw [h1]; rfl, ?_, ?_⟩
      · simp only [List.map_cons, List.mem_cons, not_or]
        exact ⟨fun h4 => he h4.symm, h2⟩
      · rw [List.find?_cons]
        simp only [he, decide_False]
        exact h3

/-! ## The list operations on a represented list -/

theorem seg_snoc {m : Mem} {l : List (Ptr × String)} {q : Ptr} {cq : String}
    {prev cur stop : Option Ptr} :
    seg m prev cur (l ++ [(q, cq)]) stop ↔
      seg m prev cur l (some q) ∧
        ∃ nd, deref m q = Res.ok nd ∧ nd.content = cq ∧ nd.prev = lastPtr prev l ∧
          nd.next = stop := by
  rw [seg_append]
  constructor
  · rintro ⟨mid, h1, hm, nd, hd, h2, h3, h4⟩
    subst hm
    exact ⟨h1, nd, hd, h2, h3, h4⟩
  · rintro ⟨h1, nd, hd, h2, h3, h4⟩
    exact ⟨some q, h1, rfl, nd, hd, h2, h3, h4⟩

theorem seg_frame_set2 {m : Mem} {l : List (Ptr × String)} {prev cur stop : Option Ptr}
    (p q : Ptr) (v w : Option history) (hp : p ∉ l.map Prod.fst) (hq : q ∉ l.map Prod.fst)
    (h : seg m prev cur l stop) : seg ((m.set p v).set q w) prev cur l stop := by
  refine seg_frame (fun a ha => ?_) h
  have h1 : q ≠ a := fun h2 => hq (h2 ▸ ha)
  have h2 : p ≠ a := fun h3 => hp (h3 ▸ ha)
  rw [deref_set_ne w h1, deref_set_ne v h2]

theorem seg_frame_set1 {m : Mem} {l : List (Ptr × String)} {prev cur stop : Option Ptr}
    (p : Ptr) (v : Option history) (hp : p ∉ l.map Prod.fst)
    (h : seg m prev cur l stop) : seg (m.set p v) prev cur l stop := by
  refine seg_frame (fun a ha => ?_) h
  have h2 : p ≠ a := fun h3 => hp (h3 ▸ ha)
  rw [deref_set_ne v h2]

theorem nodup_mid {A B : List Ptr} {q a : Ptr} (h : ((A ++ [q]) ++ a :: B).Nodup) :
    q ≠ a ∧ q ∉ A ∧ a ∉ A ∧ q ∉ B ∧ a ∉ B ∧ A.Nodup ∧ B.Nodup ∧ (∀ x ∈ A, x ∉ B) := by
  simp only [List.nodup_append, List.nodup_cons, List.mem_append, List.mem_cons,
    List.mem_singleton, List.not_mem_nil, List.nodup_nil, List.Disjoint, or_false] at h
  obtain ⟨⟨hA, ⟨hq, _⟩, hAq⟩, ⟨haB, hB⟩, hdis⟩ := h
  refine ⟨?_, ?_, ?_, ?_, ?_, hA, hB, ?_⟩
  · intro h1; exact hdis (Or.inr rfl) (Or.inl h1)
  · intro h1; exact hAq h1 rfl
  · intro h1; exact hdis (Or.inl h1) (Or.inl rfl)
  · intro h1; exact hdis (Or.inr rfl) (Or.inr h1)
  · exact haB
  · intro x hx h1; exact hdis (Or.inl hx) (Or.inr h1)

theorem history_add_evict_seg {st : State} {l1 l2 : List (Ptr × String)} {a : Ptr}
    {ca : String} (h : Rep st (l1 ++ (a, ca) :: l2)) (hne : l1 ≠ []) :
    ∃ st1, history_add_evict st a = Res.ok st1 ∧ Rep st1 l1 ∧
      st1.hist_size = st.hist_size ∧ st1.mem.length = st.mem.length := by
  have hnd := seg_nodup h
  rcases List.eq_nil_or_concat l1 with h0 | ⟨l0, ⟨q, cq⟩, h0⟩
  · exact absurd h0 hne
  rw [List.concat_eq_append] at h0
  subst h0
  unfold Rep at h
  obtain ⟨mid, hs1, hs2⟩ := seg_append.mp h
  rw [lastPtr_append_singleton] at hs2
  obtain ⟨hmid, nda, hda, _, hpa, _⟩ := hs2
  subst hmid
  obtain ⟨hs0, ndq, hdq, hcq, hpq, hnq⟩ := seg_snoc.mp hs1
  simp only [List.map_append, List.map_cons, List.map_nil] at hnd
  obtain ⟨hqa, hq0, ha0, _, _, _, _, _⟩ := nodup_mid hnd
  have hda1 : deref (st.mem.set q (some { ndq with next := none })) a = Res.ok nda := by
    rw [deref_set_ne _ hqa]
    exact hda
  refine ⟨{ st with mem := (st.mem.set q (some { ndq with next := none })).set a none },
    ?_, ?_, rfl, by simp⟩
  · simp only [history_add_evict, hda, hpa, set_next_eq none hdq, history_chunk_free, hda1]
  · unfold Rep
    refine seg_snoc.mpr ⟨seg_frame_set2 q a _ _ hq0 ha0 hs0, { ndq with next := none }, ?_,
      hcq, hpq, rfl⟩
    rw [deref_set_ne _ hqa.symm]
    exact deref_set_eq _ (deref_lt hdq)

theorem history_delete_head_seg {st : State} {l2 : List (Ptr × String)} {a : Ptr}
    {ca : String} (h : Rep st ((a, ca) :: l2)) :
    ∃ st1, history_delete st a = Res.ok st1 ∧ Rep st1 l2 ∧
      st1.hist_size = st.hist_size ∧ st1.mem.length = st.mem.length := by
  have hnd := seg_nodup h
  unfold Rep at h
  obtain ⟨hh, nda, hda, _, _, hrest⟩ := h
  have hh1 : st.history = some a := hh
  cases l2 with
  | nil =>
    have hn : nda.next = none := hrest
    refine ⟨{ st with mem := st.mem.set a none, history := none }, ?_, rfl, rfl, by simp⟩
    simp only [history_delete, hh1, if_true, hda, hn, history_chunk_free]
  | cons e r =>
    obtain ⟨b, cb⟩ := e
    obtain ⟨hn, ndb, hdb, hcb, _, hr⟩ := hrest
    have hn1 : nda.next = some b := hn
    simp only [List.map_cons, List.nodup_cons, List.mem_cons, not_or] at hnd
    obtain ⟨⟨hab, har⟩, hbr, _⟩ := hnd
    have hda1 : deref (st.mem.set b (some { ndb with prev := none })) a = Res.ok nda := by
      rw [deref_set_ne _ (Ne.symm hab)]
      exact hda
    refine ⟨{ st with history := some b,
                      mem := (st.mem.set b (some { ndb with prev := none })).set a none },
      ?_, ?_, rfl, by simp⟩
    · simp only [history_delete, hh1, if_true, hda, hn1, set_prev_eq none hdb,
        history_chunk_free, hda1]
    · refine ⟨rfl, { ndb with prev := none }, ?_, hcb, rfl,
        seg_frame_set2 b a _ _ hbr har hr⟩
      show deref ((st.mem.set b (some { ndb with prev := none })).set a none) b = _
      rw [deref_set_ne _ hab]
      exact deref_set_eq _ (deref_lt hdb)

theorem seg_head_mem {m : Mem} {l : List (Ptr × String)} {prev cur stop : Option Ptr}
    (h : seg m prev cur l stop) (hne : l ≠ []) :
    ∃ x, cur = some x ∧ x ∈ l.map Prod.fst := by
  cases l with
  | nil => exact absurd rfl hne
  | cons e r => exact ⟨e.1, h.1, by simp⟩

theorem history_delete_inner_seg {st : State} {l1 l2 : List (Ptr × String)} {a : Ptr}
    {ca : String} (h : Rep st (l1 ++ (a, ca) :: l2)) (hne : l1 ≠ []) :
    ∃ st1, history_delete st a = Res.ok st1 ∧ Rep st1 (l1 ++ l2) ∧
      st1.hist_size = st.hist_size ∧ st1.mem.length = st.mem.length := by
  have hnd := seg_nodup h
  rcases List.eq_nil_or_concat l1 with h0 | ⟨l0, ⟨q, cq⟩, h0⟩
  · exact absurd h0 hne
  rw [List.concat_eq_append] at h0
  subst h0
  unfold Rep at h
  obtain ⟨mid, hs1, hs2⟩ := seg_append.mp h
  rw [lastPtr_append_singleton] at hs2
  obtain ⟨hmid, nda, hda, _, hpa, hrest⟩ := hs2
  subst hmid
  obtain ⟨x, hx, hxm⟩ := seg_head_mem hs1 hne
  obtain ⟨hs0, ndq, hdq, hcq, hpq, hnq⟩ := seg_snoc.mp hs1
  simp only [List.map_append, List.map_cons, List.map_nil] at hnd hxm
  obtain ⟨hqa, hq0, ha0, hqB, haB, _, hB, hAB⟩ := nodup_mid hnd
  have hhead : ¬ st.history = some a := by
    rw [hx]
    intro h1
    have h2 : x = a := Option.some.inj h1
    subst h2
    rcases List.mem_append.mp hxm with h3 | h3
    · exact ha0 h3
    · exact hqa (List.mem_singleton.mp h3).symm
  have hda1 : ∀ v, deref (st.mem.set q v) a = Res.ok nda := by
    intro v
    rw [deref_set_ne _ hqa]
    exact hda
  cases l2 with
  | nil =>
    have hn : nda.next = none := hrest
    refine ⟨{ st with mem := (st.mem.set q (some { ndq with next := none })).set a none },
      ?_, ?_, rfl, by simp⟩
    · simp only [history_delete, hhead, if_false, hda, hpa, hn, set_next_eq none hdq,
        hda1, history_chunk_free]
    · rw [List.append_nil]
      unfold Rep
      refine seg_snoc.mpr ⟨seg_frame_set2 q a _ _ hq0 ha0 hs0, { ndq with next := none },
        ?_, hcq, hpq, rfl⟩
      show deref ((st.mem.set q (some { ndq with next := none })).set a none) q = _
      rw [deref_set_ne _ hqa.symm]
      exact deref_set_eq _ (deref_lt hdq)
  | cons e r =>
    obtain ⟨b, cb⟩ := e
    obtain ⟨hn, ndb, hdb, hcb, _, hr⟩ := hrest
    have hn1 : nda.next = some b := hn
    simp only [List.map_cons, List.mem_cons, not_or, List.nodup_cons] at hqB haB hB hAB
    obtain ⟨hqb, hqr⟩ := hqB
    obtain ⟨hab, har⟩ := haB
    obtain ⟨hbr, _⟩ := hB
    have hb0 : b ∉ l0.map Prod.fst := fun h1 => (hAB b h1).1 rfl
    have hdb1 : deref (st.mem.set q (some { ndq with next := some b })) b = Res.ok ndb := by
      rw [deref_set_ne _ hqb]
      exact hdb
    have hda2 : deref ((st.mem.set q (some { ndq with next := some b })).set b
        (some { ndb with prev := some q })) a = Res.ok nda := by
      rw [deref_set_ne _ (Ne.symm hab)]
      exact hda1 _
    refine ⟨{ st with mem := ((st.mem.set q (some { ndq with next := some b })).set b
        (some { ndb with prev := some q })).set a none }, ?_, ?_, rfl, by simp⟩
    · simp only [history_delete, hhead, if_false, hda, hpa, hn1, set_next_eq (some b) hdq,
        hda1, set_prev_eq (some q) hdb1, history_chunk_free, hda2]
    · unfold Rep
      rw [seg_append, lastPtr_append_singleton]
      refine ⟨some b, seg_snoc.mpr ⟨?_, { ndq with next := some b }, ?_, hcq, hpq, rfl⟩,
        rfl, { ndb with prev := some q }, ?_, hcb, rfl, ?_⟩
      · exact seg_frame_set1 a _ ha0 (seg_frame_set2 q b _ _ hq0 hb0 hs0)
      · show deref (((st.mem.set q (some { ndq with next := some b })).set b
          (some { ndb with prev := some q })).set a none) q = _
        rw [deref_set_ne _ hqa.symm, deref_set_ne _ (Ne.symm hqb)]
        exact deref_set_eq _ (deref_lt hdq)
      · show deref (((st.mem.set q (some { ndq with next := some b })).set b
          (some { ndb with prev := some q })).set a none) b = _
        rw [deref_set_ne _ hab]
        exact deref_set_eq _ (by simpa using deref_lt hdb)
      · exact seg_frame_set1 a _ har (seg_frame_set2 q b _ _ hqr hbr hr)

theorem history_delete_seg {st : State} {l1 l2 : List (Ptr × String)} {a : Ptr}
    {ca : String} (h : Rep st (l1 ++ (a, ca) :: l2)) :
    ∃ st1, history_delete st a = Res.ok st1 ∧ Rep st1 (l1 ++ l2) ∧
      st1.hist_size = st.hist_size ∧ st1.mem.length = st.mem.length := by
  by_cases hne : l1 = []
  · subst hne
    exact history_delete_head_seg h
  · exact history_delete_inner_seg h hne

theorem deref_append_lt {m : Mem} {p : Ptr} (x : Mem) (h : p < m.length) :
    deref (m ++ x) p = deref m p := by
  unfold deref
  rw [List.getElem?_append_left h]

theorem seg_frame_append {m : Mem} {l : List (Ptr × String)} {prev cur stop : Option Ptr}
    (x : Mem) (h : seg m prev cur l stop) : seg (m ++ x) prev cur l stop :=
  seg_frame (fun a ha => deref_append_lt x (seg_addr_lt h a ha)) h

theorem history_add_new_ok_seg {st : State} {l : List (Ptr × String)} (t : String)
    (h : Rep st l) :
    ∃ st2, history_add_new st t Alloc.ok = Res.ok (st2, some st.mem.length) ∧
      Rep st2 ((st.mem.length, t) :: l) ∧ st2.hist_size = st.hist_size := by
  have hnd := seg_nodup h
  have hlt := seg_addr_lt h
  unfold Rep at h
  have hlen : st.mem.length <
      (st.mem ++ [some ({ content := "", next := none, prev := none } : history)]).length := by
    simp
  have hd0 := deref_append_new st.mem { content := "", next := none, prev := none }
  have hd1 := deref_set_eq { content := t, next := none, prev := none } hlen
  have hlen1 : st.mem.length < ((st.mem ++
      [some ({ content := "", next := none, prev := none } : history)]).set st.mem.length
        (some { content := t, next := none, prev := none })).length := by
    simp
  have hd2 := deref_set_eq { content := t, next := none, prev := none } hlen1
  have hlen2 : st.mem.length < (((st.mem ++
      [some ({ content := "", next := none, prev := none } : history)]).set st.mem.length
        (some { content := t, next := none, prev := none })).set st.mem.length
        (some { content := t, next := none, prev := none })).length := by
    simp
  have hd3 := deref_set_eq { content := t, next := none, prev := none } hlen2
  generalize hr : history_add_new st t Alloc.ok = r
  cases l with
  | nil =>
    have hh : st.history = none := h
    simp only [history_add_new, set_content_eq t hd0, dlist_add, set_prev_eq none hd1,
      set_next_eq none hd2, hh] at hr
    subst hr
    exact ⟨_, rfl, ⟨rfl, _, hd3, rfl, rfl, rfl⟩, rfl⟩
  | cons e r =>
    obtain ⟨hd, ch⟩ := e
    obtain ⟨hh, ndh, hdh, hch, hph, hr1⟩ := h
    have hh1 : st.history = some hd := hh
    have hhd : hd < st.mem.length := deref_lt hdh
    have hne : st.mem.length ≠ hd := Nat.ne_of_gt hhd
    simp only [List.map_cons, List.nodup_cons] at hnd
    have hlen3 : st.mem.length < ((((st.mem ++
        [some ({ content := "", next := none, prev := none } : history)]).set st.mem.length
          (some { content := t, next := none, prev := none })).set st.mem.length
          (some { content := t, next := none, prev := none })).set st.mem.length
          (some { content := t, next := none, prev := none })).length := by
      simp
    have hd4 := deref_set_eq { content := t, next := some hd, prev := none } hlen3
    have hd5 : deref (((((st.mem ++
        [some ({ content := "", next := none, prev := none } : history)]).set st.mem.length
          (some { content := t, next := none, prev := none })).set st.mem.length
          (some { content := t, next := none, prev := none })).set st.mem.length
          (some { content := t, next := none, prev := none })).set st.mem.length
          (some { content := t, next := some hd, prev := none })) hd = Res.ok ndh := by
      rw [deref_set_ne _ hne, deref_set_ne _ hne, deref_set_ne _ hne, deref_set_ne _ hne,
        deref_append_lt _ hhd]
      exact hdh
    have hx : ∀ x ∈ r.map Prod.fst, deref ((((((st.mem ++
        [some ({ content := "", next := none, prev := none } : history)]).set st.mem.length
          (some { content := t, next := none, prev := none })).set st.mem.length
          (some { content := t, next := none, prev := none })).set st.mem.length
          (some { content := t, next := none, prev := none })).set st.mem.length
          (some { content := t, next := some hd, prev := none })).set hd
          (some { ndh with prev := some st.mem.length })) x = deref st.mem x := by
      intro x hx
      have hxl : x < st.mem.length := hlt x (by simp [hx])
      have hx1 : st.mem.length ≠ x := Nat.ne_of_gt hxl
      have hx2 : hd ≠ x := fun h1 => hnd.1 (h1 ▸ hx)
      rw [deref_set_ne _ hx2, deref_set_ne _ hx1, deref_set_ne _ hx1, deref_set_ne _ hx1,
        deref_set_ne _ hx1, deref_append_lt _ hxl]
    simp only [history_add_new, set_content_eq t hd0, dlist_add, set_prev_eq none hd1,
      set_next_eq none hd2, hh1, set_next_eq (some hd) hd3, set_prev_eq (some _) hd5] at hr
    subst hr
    refine ⟨_, rfl, ⟨rfl, { content := t, next := some hd, prev := none }, ?_, rfl, rfl,
      rfl, { ndh with prev := some st.mem.length }, ?_, hch, rfl, seg_frame hx hr1⟩, rfl⟩
    · show deref (List.set _ hd _) st.mem.length = _
      rw [deref_set_ne _ (Ne.symm hne)]
      exact hd4
    · show deref (List.set _ hd _) hd = _
      exact deref_set_eq _ (by
        simp only [List.length_set, List.length_append, List.length_singleton]
        exact Nat.lt_succ_of_lt hhd)

theorem history_add_new_fail_seg {st : State} {l : List (Ptr × String)} (t : String)
    (a : Alloc) (ha : a ≠ Alloc.ok) (h : Rep st l) :
    ∃ st2, history_add_new st t a = Res.ok (st2, none) ∧ Rep st2 l ∧
      st2.hist_size = st.hist_size := by
  cases a with
  | ok => exact absurd rfl ha
  | malloc_fails => exact ⟨st, rfl, h, rfl⟩
  | strdup_fails => exact ⟨_, rfl, seg_frame_append _ h, rfl⟩

/-! ## `history_add` on a represented list -/

theorem history_add_front {st : State} {l : List (Ptr × String)} (t : String) (a : Alloc)
    (h : Rep st l) (h2 : 2 ≤ st.hist_size) :
    ∃ st1, history_add st t a = history_add_new st1 t a ∧
      Rep st1 (l.take (st.hist_size - 1).toNat) ∧
      st1.hist_size = st.hist_size ∧ st1.mem.length = st.mem.length := by
  have hscan := history_add_scan_seg st.hist_size (st.hist_size - 1).toNat 1 h (by omega)
  cases hk : l[(st.hist_size - 1).toNat]? with
  | none =>
    rw [hk] at hscan
    refine ⟨st, ?_, ?_, rfl, rfl⟩
    · simp only [history_add, hscan, Option.map_none']
    · rw [List.take_of_length_le (List.getElem?_eq_none_iff.mp hk)]
      exact h
  | some e =>
    obtain ⟨p, c⟩ := e
    rw [hk] at hscan
    obtain ⟨hlt, hget⟩ := List.getElem?_eq_some_iff.mp hk
    have hsplit : l = l.take (st.hist_size - 1).toNat ++
        (p, c) :: l.drop ((st.hist_size - 1).toNat + 1) := by
      rw [← hget, ← List.drop_eq_getElem_cons hlt, List.take_append_drop]
    have hne : l.take (st.hist_size - 1).toNat ≠ [] := by
      intro h0
      have h1 := congrArg List.length h0
      rw [List.length_take] at h1
      simp only [List.length_nil] at h1
      omega
    rw [hsplit] at h
    obtain ⟨st1, he, hr, hs, hm⟩ := history_add_evict_seg h hne
    refine ⟨st1, ?_, hr, hs, hm⟩
    simp only [history_add, hscan, Option.map_some', he]

theorem history_add_nil {st : State} (t : String) (a : Alloc) (h : Rep st []) :
    history_add st t a = history_add_new st t a := by
  have hh : st.history = none := h
  have hscan : history_add_scan st.mem st.hist_size (st.hist_size - 1).toNat none 1 =
      Res.ok none := by
    cases (st.hist_size - 1).toNat <;> rfl
  simp only [history_add, hh, hscan]

theorem history_add_small {st : State} {e : Ptr × String} {r : List (Ptr × String)}
    (t : String) (a : Alloc) (h : Rep st (e :: r)) (h2 : st.hist_size < 2) :
    history_add st t a = Res.error Err.fault := by
  obtain ⟨hh, nd, hd, _, hp, _⟩ := h
  have hh1 : st.history = some e.1 := hh
  have hk : (st.hist_size - 1).toNat = 0 := by omega
  have hi : ¬ (1 : Int) < st.hist_size := by omega
  have hscan : history_add_scan st.mem st.hist_size 0 (some e.1) 1 = Res.ok (some e.1) := by
    simp only [history_add_scan, hi, if_false]
  simp only [history_add, hh1, hk, hscan, history_add_evict, hd, hp]

theorem history_add_ok_seg {st : State} {l : List (Ptr × String)} (t : String)
    (h : Rep st l) (h2 : 2 ≤ st.hist_size) :
    ∃ st2, history_add st t Alloc.ok = Res.ok (st2, some st.mem.length) ∧
      Rep st2 ((st.mem.length, t) :: l.take (st.hist_size - 1).toNat) ∧
      st2.hist_size = st.hist_size := by
  obtain ⟨st1, he, hr, hs, hm⟩ := history_add_front t Alloc.ok h h2
  obtain ⟨st2, ha, hr2, hs2⟩ := history_add_new_ok_seg t hr
  rw [hm] at ha hr2
  exact ⟨st2, he.trans ha, hr2, hs2.trans hs⟩

theorem history_add_fail_seg {st : State} {l : List (Ptr × String)} (t : String)
    (a : Alloc) (ha : a ≠ Alloc.ok) (h : Rep st l) (h2 : 2 ≤ st.hist_size) :
    ∃ st2, history_add st t a = Res.ok (st2, none) ∧
      Rep st2 (l.take (st.hist_size - 1).toNat) ∧ st2.hist_size = st.hist_size := by
  obtain ⟨st1, he, hr, hs, _⟩ := history_add_front t a h h2
  obtain ⟨st2, ha2, hr2, hs2⟩ := history_add_new_fail_seg t a ha hr
  exact ⟨st2, he.trans ha2, hr2, hs2.trans hs⟩

/-- Every outcome of `history_add` on a represented list: with `hist_size ≥ 2`
or an empty list it returns, keeping the first `hist_size - 1` entries and
putting the new entry, when one was allocated, before them; otherwise it
faults. -/
theorem history_add_cases {st : State} {l : List (Ptr × String)} (t : String) (a : Alloc)
    (h : Rep st l) :
    (∃ st2 r, history_add st t a = Res.ok (st2, r) ∧ st2.hist_size = st.hist_size ∧
      ((∃ p, r = some p ∧ Rep st2 ((p, t) :: l.take (st.hist_size - 1).toNat)) ∨
        (r = none ∧ Rep st2 (l.take (st.hist_size - 1).toNat)))) ∨
    (history_add st t a = Res.error Err.fault ∧ st.hist_size < 2) := by
  by_cases h2 : 2 ≤ st.hist_size
  · left
    by_cases ha : a = Alloc.ok
    · subst ha
      obtain ⟨st2, h1, h3, h4⟩ := history_add_ok_seg t h h2
      exact ⟨st2, _, h1, h4, Or.inl ⟨_, rfl, h3⟩⟩
    · obtain ⟨st2, h1, h3, h4⟩ := history_add_fail_seg t a ha h h2
      exact ⟨st2, _, h1, h4, Or.inr ⟨rfl, h3⟩⟩
  · cases l with
    | nil =>
      left
      rw [history_add_nil t a h]
      by_cases ha : a = Alloc.ok
      · subst ha
        obtain ⟨st2, h1, h3, h4⟩ := history_add_new_ok_seg t h
        exact ⟨st2, _, h1, h4, Or.inl ⟨_, rfl, by rw [List.take_nil]; exact h3⟩⟩
      · obtain ⟨st2, h1, h3, h4⟩ := history_add_new_fail_seg t a ha h
        exact ⟨st2, _, h1, h4, Or.inr ⟨rfl, by rw [List.take_nil]; exact h3⟩⟩
    | cons e r =>
      right
      exact ⟨history_add_small t a h (by omega), by omega⟩

/-! ## The handlers on a represented list -/

theorem copit_callback_present {st : State} {l : List (Ptr × String)} {t : String}
    (a : Alloc) (h : Rep st l) (hp : t ∈ l.map Prod.snd) :
    copit_callback st (some t) a = Res.ok st := by
  obtain ⟨l1, p, l2, _, _, hf⟩ := find_some_of_present hp
  by_cases ht : t = ""
  · simp only [copit_callback, ht, if_true]
  · simp only [copit_callback, ht, if_false, history_have_entry_eq t h, hf, Option.map_some']

theorem copit_callback_absent {st : State} {l : List (Ptr × String)} {t : String}
    (a : Alloc) (h : Rep st l) (ht : t ≠ "") (hp : t ∉ l.map Prod.snd) :
    copit_callback st (some t) a =
      match history_add st t a with
      | Res.error e => Res.error e
      | Res.ok r => Res.ok r.1 := by
  simp only [copit_callback, ht, if_false, history_have_entry_eq t h,
    find_none_of_absent hp, Option.map_none']

theorem pastit_callback_absent {st : State} {l : List (Ptr × String)} {z : String}
    (readback : String) (a : Alloc) (h : Rep st l) (hz : z ∉ l.map Prod.snd) :
    pastit_callback st z readback a = Res.ok st := by
  simp only [pastit_callback, history_have_entry_eq z h, find_none_of_absent hz,
    Option.map_none']

theorem pastit_callback_present {st : State} {l : List (Ptr × String)} {c : String}
    (readback : String) (a : Alloc) (h : Rep st l) (hc : c ∈ l.map Prod.snd) :
    ∃ l1 p l2 st1, l = l1 ++ (p, c) :: l2 ∧ c ∉ l1.map Prod.snd ∧
      history_delete st p = Res.ok st1 ∧ Rep st1 (l1 ++ l2) ∧
      st1.hist_size = st.hist_size ∧ st1.mem.length = st.mem.length ∧
      pastit_callback st c readback a =
        match history_add st1 readback a with
        | Res.error e => Res.error e
        | Res.ok r => Res.ok r.1 := by
  obtain ⟨l1, p, l2, hl, h1, hf⟩ := find_some_of_present hc
  have h0 := h
  rw [hl] at h0
  obtain ⟨st1, hdel, hr, hs, hm⟩ := history_delete_seg h0
  refine ⟨l1, p, l2, st1, hl, h1, hdel, hr, hs, hm, ?_⟩
  simp only [pastit_callback, history_have_entry_eq c h, hf, Option.map_some', hdel]

theorem history_add_room {st : State} {l : List (Ptr × String)} (t : String)
    (h : Rep st l) (hlt : (l.length : Int) < st.hist_size) :
    ∃ st2, history_add st t Alloc.ok = Res.ok (st2, some st.mem.length) ∧
      Rep st2 ((st.mem.length, t) :: l) ∧ st2.hist_size = st.hist_size := by
  cases l with
  | nil =>
    rw [history_add_nil t Alloc.ok h]
    exact history_add_new_ok_seg t h
  | cons e r =>
    have h2 : 2 ≤ st.hist_size := by
      simp only [List.length_cons] at hlt
      push_cast at hlt
      omega
    obtain ⟨st2, h1, h3, h4⟩ := history_add_ok_seg t h h2
    rw [List.take_of_length_le (by omega)] at h3
    exact ⟨st2, h1, h3, h4⟩

theorem take_full_eq_dropLast {α : Type} (l : List α) (k : Nat) (h : l.length = k + 1) :
    l.take k = l.dropLast := by
  rw [List.dropLast_eq_take, h]
  rfl

theorem filter_other_eq {l1 l2 : List (Ptr × String)} {p : Ptr} {c : String}
    (hnd : ((l1 ++ (p, c) :: l2).map Prod.snd).Nodup) :
    (l1 ++ (p, c) :: l2).filter (fun e => decide (e.2 ≠ c)) = l1 ++ l2 := by
  simp only [List.map_append, List.map_cons] at hnd
  obtain ⟨_, h2, h3⟩ := List.nodup_append.mp hnd
  have hc1 : c ∉ l1.map Prod.snd := fun h => h3 h (List.mem_cons_self _ _)
  have hc2 : c ∉ l2.map Prod.snd := (List.nodup_cons.mp h2).1
  have hf : ∀ l : List (Ptr × String), c ∉ l.map Prod.snd →
      l.filter (fun e => decide (e.2 ≠ c)) = l := by
    intro l hl
    rw [List.filter_eq_self]
    intro e he
    simp only [ne_eq, decide_not, Bool.not_eq_true', decide_eq_false_iff_not]
    intro h
    exact hl (List.mem_map.mpr ⟨e, he, h⟩)
  rw [List.filter_append, hf l1 hc1, List.filter_cons]
  simp only [ne_eq, not_true_eq_false, decide_False]
  rw [if_neg (by simp)]
  have := hf l2 hc2
  simp only [ne_eq] at this
  rw [this]

theorem erase_split_eq {l1 l2 : List (Ptr × String)} {e : Ptr × String}
    (hnd : ((l1 ++ e :: l2).map Prod.snd).Nodup) :
    (l1 ++ e :: l2).erase e = l1 ++ l2 := by
  simp only [List.map_append, List.map_cons] at hnd
  obtain ⟨_, _, h3⟩ := List.nodup_append.mp hnd
  have he : e ∉ l1 := fun h =>
    h3 (List.mem_map.mpr ⟨e, h, rfl⟩) (List.mem_cons_self _ _)
  rw [List.erase_append_right _ he, List.erase_cons_head]

theorem seg_pred {st : State} {l1 l2 : List (Ptr × String)} {a : Ptr} {ca : String}
    (h : Rep st (l1 ++ (a, ca) :: l2)) (hne : l1 ≠ []) :
    st.history ≠ some a ∧
      ∃ nd q ndq, deref st.mem a = Res.ok nd ∧ nd.prev = some q ∧
        deref st.mem q = Res.ok ndq ∧ ndq.next = some a := by
  have hnd := seg_nodup h
  rcases List.eq_nil_or_concat l1 with h0 | ⟨l0, ⟨q, cq⟩, h0⟩
  · exact absurd h0 hne
  rw [List.concat_eq_append] at h0
  subst h0
  unfold Rep at h
  obtain ⟨mid, hs1, hs2⟩ := seg_append.mp h
  rw [lastPtr_append_singleton] at hs2
  obtain ⟨hmid, nda, hda, _, hpa, _⟩ := hs2
  subst hmid
  obtain ⟨x, hx, hxm⟩ := seg_head_mem hs1 hne
  obtain ⟨_, ndq, hdq, _, _, hnq⟩ := seg_snoc.mp hs1
  simp only [List.map_append, List.map_cons, List.map_nil] at hnd hxm
  obtain ⟨hqa, _, ha0, _, _, _, _, _⟩ := nodup_mid hnd
  refine ⟨?_, nda, q, ndq, hda, hpa, hdq, hnq⟩
  rw [hx]
  intro h1
  have h2 : x = a := Option.some.inj h1
  subst h2
  rcases List.mem_append.mp hxm with h3 | h3
  · exact ha0 h3
  · exact hqa (List.mem_singleton.mp h3).symm

theorem copit_callback_fresh {st : State} {l : List (Ptr × String)} {t : String}
    (hwf : Rep st l) (h2 : 2 ≤ st.hist_size) (ht : t ≠ "") (habs : t ∉ l.map Prod.snd) :
    ∃ st1, copit_callback st (some t) Alloc.ok = Res.ok st1 ∧
      st1.hist_size = st.hist_size ∧
      Rep st1 ((st.mem.length, t) :: l.take (st.hist_size - 1).toNat) := by
  obtain ⟨st1, h1, h3, h4⟩ := history_add_ok_seg t hwf h2
  refine ⟨st1, ?_, h4, h3⟩
  rw [copit_callback_absent Alloc.ok hwf ht habs, h1]

/-! ## One event preserves the invariant -/

theorem Good_sublist {l1 l2 : List (Ptr × String)} (hs : l1.Sublist l2) (h : Good l2) :
    Good l1 :=
  ⟨h.1.sublist (hs.map Prod.snd), fun c hc => h.2 c ((hs.map Prod.snd).subset hc)⟩

theorem Good_cons {l l1 : List (Ptr × String)} (p : Ptr) {t : String} (hs : l1.Sublist l)
    (h : Good l) (ht : t ≠ "") (habs : t ∉ l.map Prod.snd) : Good ((p, t) :: l1) := by
  have h1 := Good_sublist hs h
  refine ⟨?_, ?_⟩
  · rw [List.map_cons, List.nodup_cons]
    exact ⟨fun hm => habs ((hs.map Prod.snd).subset hm), h1.1⟩
  · intro c hc
    rcases List.mem_cons.mp hc with h2 | h2
    · rw [h2]
      exact ht
    · exact h1.2 c h2

theorem sublist_remove (l1 l2 : List (Ptr × String)) (e : Ptr × String) :
    (l1 ++ l2).Sublist (l1 ++ e :: l2) :=
  List.Sublist.append_left (List.sublist_cons_self e l2) l1

theorem absent_after_remove {l1 l2 : List (Ptr × String)} {p : Ptr} {c : String}
    (h : Good (l1 ++ (p, c) :: l2)) : c ∉ (l1 ++ l2).map Prod.snd := by
  have hnd := h.1
  simp only [List.map_append, List.map_cons] at hnd
  obtain ⟨_, h2, h3⟩ := List.nodup_append.mp hnd
  simp only [List.map_append, List.mem_append, not_or]
  exact ⟨fun h4 => h3 h4 (List.mem_cons_self _ _), (List.nodup_cons.mp h2).1⟩

/-- What adding does to the invariant: used for both handlers that add. -/
theorem history_add_step {st : State} {l l0 : List (Ptr × String)} (t : String) (a : Alloc)
    (h : Rep st l) (hs : l.Sublist l0) :
    (∃ st1 l1, (match history_add st t a with
          | Res.error e => Res.error e
          | Res.ok r => Res.ok r.1) = Res.ok st1 ∧
        st1.hist_size = st.hist_size ∧ Rep st1 l1 ∧
        (Good l0 → t ≠ "" → t ∉ l0.map Prod.snd → Good l1) ∧
        (2 ≤ st.hist_size → (l1.length : Int) ≤ st.hist_size)) ∨
      ((match history_add st t a with
          | Res.error e => Res.error e
          | Res.ok r => Res.ok r.1) = Res.error Err.fault ∧ st.hist_size < 2) := by
  have htake : (l.take (st.hist_size - 1).toNat).Sublist l0 :=
    (List.take_sublist _ _).trans hs
  have hlen : (l.take (st.hist_size - 1).toNat).length ≤ (st.hist_size - 1).toNat := by
    rw [List.length_take]
    exact Nat.min_le_left _ _
  rcases history_add_cases t a h with ⟨st2, r, h1, h2, h3⟩ | ⟨h1, h2⟩
  · left
    rcases h3 with ⟨p, _, h4⟩ | ⟨_, h4⟩
    · refine ⟨st2, _, by rw [h1], h2, h4,
        fun hg ht habs => Good_cons p htake hg ht habs, ?_⟩
      intro hn
      simp only [List.length_cons]
      push_cast
      omega
    · refine ⟨st2, _, by rw [h1], h2, h4, fun hg _ _ => Good_sublist htake hg, ?_⟩
      intro hn
      omega
  · right
    exact ⟨by rw [h1], h2⟩

/-- One event on a represented list: the handler returns a represented list
within the capacity bound, or faults with `hist_size < 2`.  Distinct non-empty
contents are kept when a selection reads back the label it started from. -/
theorem handle_step {st : State} {l : List (Ptr × String)} (ev : Event)
    (h : Rep st l) (hen : enabled st ev = true) :
    (∃ st1 l1, handle st ev = Res.ok st1 ∧ st1.hist_size = st.hist_size ∧ Rep st1 l1 ∧
        (label_kept ev = true → Good l → Good l1) ∧
        (2 ≤ st.hist_size → (l.length : Int) ≤ st.hist_size →
          (l1.length : Int) ≤ st.hist_size)) ∨
      (handle st ev = Res.error Err.fault ∧ st.hist_size < 2) := by
  cases ev with
  | owner_change text a =>
    cases text with
    | none => exact Or.inl ⟨st, l, rfl, rfl, h, fun _ hg => hg, fun _ hl => hl⟩
    | some t =>
      by_cases ht : t = ""
      · left
        refine ⟨st, l, ?_, rfl, h, fun _ hg => hg, fun _ hl => hl⟩
        simp only [handle, copit_callback, ht, if_true]
      · by_cases hp : t ∈ l.map Prod.snd
        · exact Or.inl ⟨st, l, copit_callback_present a h hp, rfl, h, fun _ hg => hg,
            fun _ hl => hl⟩
        · have hc := copit_callback_absent a h ht hp
          rcases history_add_step t a h (List.Sublist.refl l) with
            ⟨st1, l1, h1, h2, h3, h4, h5⟩ | ⟨h1, h2⟩
          · exact Or.inl ⟨st1, l1, hc.trans h1, h2, h3, fun _ hg => h4 hg ht hp,
              fun hn _ => h5 hn⟩
          · exact Or.inr ⟨hc.trans h1, h2⟩
  | clicked_text label readback a =>
    by_cases hp : label ∈ l.map Prod.snd
    · obtain ⟨l1, p, l2, st0, hl, _, _, hr, hs, _, hpaste⟩ :=
        pastit_callback_present readback a h hp
      subst hl
      rcases history_add_step readback a hr (List.Sublist.refl _) with
        ⟨st1, l3, h1, h2, h3, h4, h5⟩ | ⟨h1, h2⟩
      · refine Or.inl ⟨st1, l3, hpaste.trans h1, h2.trans hs, h3, ?_, ?_⟩
        · intro hk hg
          have hrb : readback = label := by
            simpa only [label_kept, decide_eq_true_eq] using hk
          subst hrb
          exact h4 (Good_sublist (sublist_remove l1 l2 _) hg) (hg.2 readback hp)
            (absent_after_remove hg)
        · intro hn _
          rw [← hs]
          exact h5 (hs ▸ hn)
      · exact Or.inr ⟨hpaste.trans h1, hs ▸ h2⟩
    · exact Or.inl ⟨st, l, pastit_callback_absent readback a h hp, rfl, h, fun _ hg => hg,
        fun _ hl => hl⟩
  | clicked_delete data =>
    left
    have hmem : data ∈ l.map Prod.fst := by
      have := hen
      simp only [enabled, decide_eq_true_eq, entries_eq h] at this
      exact this
    obtain ⟨e, he, hd⟩ := List.mem_map.mp hmem
    obtain ⟨l1, l2, hl⟩ := List.append_of_mem he
    subst hl
    obtain ⟨p, c⟩ := e
    have hd1 : p = data := hd
    subst hd1
    obtain ⟨st1, hdel, hr, hs, _⟩ := history_delete_seg h
    refine ⟨st1, l1 ++ l2, hdel, hs, hr,
      fun _ hg => Good_sublist (sublist_remove l1 l2 _) hg, ?_⟩
    intro _ hlen
    simp only [List.length_append, List.length_cons] at hlen ⊢
    push_cast at hlen ⊢
    omega

/-! ## Sequences of events -/

theorem run_inv (evs : List Event) :
    ∀ (st : State) (l : List (Ptr × String)), Rep st l →
      deliverable st evs = true →
      (∀ st1, run st evs = Res.ok st1 →
        st1.hist_size = st.hist_size ∧
          ∃ l1, Rep st1 l1 ∧ (evs.all label_kept = true → Good l → Good l1) ∧
            (2 ≤ st.hist_size → (l.length : Int) ≤ st.hist_size →
              (l1.length : Int) ≤ st.hist_size)) ∧
      (2 ≤ st.hist_size → ∃ st1, run st evs = Res.ok st1) := by
  induction evs with
  | nil =>
    intro st l h _
    refine ⟨?_, fun _ => ⟨st, rfl⟩⟩
    intro st1 hrun
    cases hrun
    exact ⟨rfl, l, h, fun _ hg => hg, fun _ hl => hl⟩
  | cons ev evs ih =>
    intro st l h hdel
    simp only [deliverable, Bool.and_eq_true] at hdel
    obtain ⟨hen, hrest⟩ := hdel
    rcases handle_step ev h hen with ⟨st0, l0, h1, h2, h3, h4, h5⟩ | ⟨h1, h2⟩
    · rw [h1] at hrest
      obtain ⟨ih1, ih2⟩ := ih st0 l0 h3 hrest
      constructor
      · intro st1 hrun
        simp only [run, h1] at hrun
        obtain ⟨h6, l1, h7, h8, h9⟩ := ih1 st1 hrun
        refine ⟨h6.trans h2, l1, h7, ?_, ?_⟩
        · intro hall hg
          simp only [List.all_cons, Bool.and_eq_true] at hall
          exact h8 hall.2 (h4 hall.1 hg)
        · intro hn hl
          rw [← h2]
          exact h9 (h2 ▸ hn) (h2 ▸ h5 hn hl)
      · intro hn
        obtain ⟨st1, hrun⟩ := ih2 (h2 ▸ hn)
        exact ⟨st1, by simp only [run, h1, hrun]⟩
    · constructor
      · intro st1 hrun
        simp only [run, h1] at hrun
        cases hrun
      · intro hn
        omega

theorem all_take {α : Type} (p : α → Bool) (l : List α) (k : Nat)
    (h : l.all p = true) : (l.take k).all p = true := by
  rw [List.all_eq_true] at h ⊢
  intro x hx
  exact h x (List.mem_of_mem_take hx)

theorem deliverable_take (evs : List Event) :
    ∀ (st : State) (k : Nat), deliverable st evs = true →
      deliverable st (evs.take k) = true := by
  induction evs with
  | nil =>
    intro st k h
    rw [List.take_nil]
    exact h
  | cons ev evs ih =>
    intro st k h
    cases k with
    | zero => rfl
    | succ k =>
      simp only [deliverable, Bool.and_eq_true, List.take_succ_cons] at h ⊢
      refine ⟨h.1, ?_⟩
      cases hh : handle st ev with
      | ok st1 =>
        rw [hh] at h
        exact ih st1 k h.2
      | error e => rfl

theorem Rep_init (n : Int) : Rep (init n) [] := rfl

theorem Good_nil : Good [] :=
  ⟨List.nodup_nil, fun _ hc => absurd hc (List.not_mem_nil _)⟩

/-! ## The option parser -/

theorem isDigit_toNat (d : Char) (h : d.isDigit = true) : 48 ≤ d.toNat ∧ d.toNat ≤ 57 := by
  simp only [Char.isDigit, Bool.and_eq_true, decide_eq_true_eq, ge_iff_le] at h
  obtain ⟨h1, h2⟩ := h
  rw [UInt32.le_def] at h1 h2
  simp only [Char.toNat, UInt32.toNat]
  exact ⟨h1, h2⟩

theorem isspace_of_isDigit (d : Char) (h : d.isDigit = true) : isspace d = false := by
  obtain ⟨h1, h2⟩ := isDigit_toNat d h
  simp only [isspace, Bool.or_eq_false_iff, decide_eq_false_iff_not, Bool.and_eq_false_imp,
    decide_eq_true_eq]
  omega

theorem ne_sign_of_isDigit (d : Char) (h : d.isDigit = true) : d ≠ '-' ∧ d ≠ '+' := by
  obtain ⟨h1, h2⟩ := isDigit_toNat d h
  constructor
  · intro h3
    rw [h3] at h1
    exact absurd h1 (by decide)
  · intro h3
    rw [h3] at h1
    exact absurd h1 (by decide)

theorem long_to_int_eq (x : Int) (h1 : -(2 ^ 31) ≤ x) (h2 : x < 2 ^ 31) :
    long_to_int x = x := by
  unfold long_to_int
  rw [Int.emod_eq_of_lt (by omega) (by omega)]
  omega

/-- On the text of a decimal integer, `strtol` reads everything and returns the
value, brought into the range of `long`. -/
theorem strtol_decimal_text (long_bits : Nat) (neg : Bool) (digits : List Char)
    (hne : digits ≠ []) (hdig : ∀ d ∈ digits, d.isDigit = true) :
    strtol long_bits (decimal_text neg digits) =
      (max (-(2 ^ (long_bits - 1)))
        (min (2 ^ (long_bits - 1) - 1) (decimal_value neg digits)), []) := by
  obtain ⟨d, ds, hd⟩ := List.exists_cons_of_ne_nil hne
  subst hd
  have hd0 : d.isDigit = true := hdig d (List.mem_cons_self _ _)
  have htake : (d :: ds).takeWhile Char.isDigit = d :: ds :=
    List.takeWhile_eq_self_iff.mpr hdig
  have hdrop : (d :: ds).dropWhile Char.isDigit = [] :=
    List.dropWhile_eq_nil_iff.mpr hdig
  obtain ⟨hm, hp⟩ := ne_sign_of_isDigit d hd0
  cases neg with
  | true =>
    have hbody : (decimal_text true (d :: ds)).dropWhile isspace = '-' :: d :: ds := by
      simp only [decimal_text, if_true, List.singleton_append]
      rw [List.dropWhile_cons_of_neg (by decide)]
    simp only [strtol, hbody, List.head?_cons, true_or, if_true, List.tail_cons, htake,
      hdrop, decimal_value]
    simp
  | false =>
    have hbody : (decimal_text false (d :: ds)).dropWhile isspace = d :: ds := by
      simp only [decimal_text, Bool.false_eq_true, if_false, List.nil_append]
      rw [List.dropWhile_cons_of_neg (by rw [isspace_of_isDigit d hd0]; decide)]
    have h1 : ¬ (some d = some '-') := fun h => hm (Option.some.inj h)
    have h2 : ¬ (some d = some '+') := fun h => hp (Option.some.inj h)
    simp only [strtol, hbody, List.head?_cons, h1, h2, or_self, if_false, htake, hdrop,
      decimal_value]
    simp

/-- The part of the capacity validation that the code does carry out: for the
text of a decimal integer `n` that fits in a 32-bit `int` (and a `long` of at
least 32 bits), `-s` is accepted, with `hist_size = n`, exactly when
`2 ≤ n ≤ 1024`, and ends the process with status 1 otherwise. -/
theorem parse_program_options_int_range (long_bits : Nat) (neg : Bool) (digits : List Char)
    (hbits : 32 ≤ long_bits) (hne : digits ≠ []) (hdig : ∀ d ∈ digits, d.isDigit = true)
    (hlo : -(2 ^ 31) ≤ decimal_value neg digits) (hhi : decimal_value neg digits < 2 ^ 31) :
    parse_program_options long_bits [Opt.s (String.mk (decimal_text neg digits))] =
      if 2 ≤ decimal_value neg digits ∧ decimal_value neg digits ≤ 1024 then
        Outcome.returns { Config.default with hist_size := decimal_value neg digits }
      else Outcome.exit 1 := by
  have hpow : (2 : Int) ^ 31 ≤ 2 ^ (long_bits - 1) :=
    pow_le_pow_right₀ (by decide) (by omega)
  have hclamp : max (-(2 ^ (long_bits - 1)))
      (min (2 ^ (long_bits - 1) - 1) (decimal_value neg digits)) =
        decimal_value neg digits := by
    rw [min_eq_right (by omega), max_eq_right (by omega)]
  have hs : strtol long_bits (String.mk (decimal_text neg digits)).toList =
      (decimal_value neg digits, []) := by
    have hl : (String.mk (decimal_text neg digits)).toList = decimal_text neg digits := rfl
    rw [hl, strtol_decimal_text long_bits neg digits hne hdig, hclamp]
  simp only [parse_program_options, parse_program_options_from, hs, ne_eq,
    not_true_eq_false, if_false, long_to_int_eq _ hlo hhi, HISTORY_MIN, HISTORY_MAX,
    EXIT_FAILURE]
  by_cases h : 2 ≤ decimal_value neg digits ∧ decimal_value neg digits ≤ 1024
  · rw [if_pos h, if_neg (by omega)]
  · rw [if_neg h, if_pos (by omega)]

/-- Without `-s` the capacity is `HISTORY_DEFAULT_SIZE`, 64, and it is accepted. -/
theorem parse_program_options_default (long_bits : Nat) :
    parse_program_options long_bits [] = Outcome.returns Config.default ∧
      Config.default.hist_size = 64 := by
  constructor
  · rfl
  · rfl

/-! ## The selection handler and the text read back -/

/-- What the selection handler does on a list `l` of at most `hist_size`
entries with pairwise different contents, given the content `c` of an entry
(the allocations of `history_add` succeeding): the new list is a new node
holding the text read back through the label pointer, followed by the entries
of `l` whose content is not `c`, in their order in `l`. -/
theorem pastit_callback_head_is_readback (st : State) (l : List (Ptr × String))
    (c readback : String) (hwf : Rep st l) (hnd : (l.map Prod.snd).Nodup)
    (hsz : (l.length : Int) ≤ st.hist_size) (hc : c ∈ l.map Prod.snd) :
    ∃ st1, pastit_callback st c readback Alloc.ok = Res.ok st1 ∧
      st1.hist_size = st.hist_size ∧ Rep st1 (entries st1) ∧
      entries st1 = (st.mem.length, readback) :: l.filter (fun e => decide (e.2 ≠ c)) ∧
      (entries st1).length = l.length := by
  obtain ⟨l1, p, l2, st0, hl, _, _, hr, hs, hm, hpaste⟩ :=
    pastit_callback_present readback Alloc.ok hwf hc
  subst hl
  have hroom : ((l1 ++ l2).length : Int) < st0.hist_size := by
    rw [hs]
    simp only [List.length_append, List.length_cons] at hsz ⊢
    push_cast at hsz ⊢
    omega
  obtain ⟨st1, h1, h3, h4⟩ := history_add_room readback hr hroom
  have he := entries_eq h3
  rw [hm] at he h1
  refine ⟨st1, ?_, h4.trans hs, ?_, ?_, ?_⟩
  · rw [hpaste, h1]
  · rw [he, ← hm]
    exact h3
  · rw [he, filter_other_eq hnd]
  · rw [he]
    simp only [List.length_cons, List.length_append]
    omega

/-- Promote on reselect when the label storage is untouched: the text read
back is the label `c`, and the new list is `c` followed by the other entries
of `l` in their order, with the length of `l`. -/
theorem pastit_callback_label_kept_promotes (st : State) (l : List (Ptr × String))
    (c : String) (hwf : Rep st l) (hnd : (l.map Prod.snd).Nodup)
    (hsz : (l.length : Int) ≤ st.hist_size) (hc : c ∈ l.map Prod.snd) :
    ∃ st1, pastit_callback st c c Alloc.ok = Res.ok st1 ∧
      st1.hist_size = st.hist_size ∧ Rep st1 (entries st1) ∧
      entries st1 = (st.mem.length, c) :: l.filter (fun e => decide (e.2 ≠ c)) ∧
      (entries st1).length = l.length :=
  pastit_callback_head_is_readback st l c c hwf hnd hsz hc

/-- The list (c, b, a) with selection of "a", the label read back unchanged,
gives (a, c, b). -/
theorem pastit_callback_label_kept_promotes_example :
    ∃ st1, pastit_callback st_cba "a" "a" Alloc.ok = Res.ok st1 ∧
      entries st1 = [(3, "a"), (2, "c"), (1, "b")] := by
  obtain ⟨st1, h1, _, _, h4, _⟩ :=
    pastit_callback_label_kept_promotes st_cba [(2, "c"), (1, "b"), (0, "a")] "a"
      (by decide) (by decide) (by decide) (by decide)
  exact ⟨st1, h1, h4⟩

/-- Uniqueness when every selection reads back its label: from the empty
history, for every `hist_size`, every sequence of events of that kind that can
occur and every allocation outcome, each state the handlers reach holds a
well-formed list with pairwise different, non-empty contents; with
`hist_size ≥ 2` the handlers return after each event. -/
theorem uniqueness_label_kept (n : Int) (evs : List Event) (k : Nat)
    (hev : deliverable (init n) evs = true) (hkept : evs.all label_kept = true) :
    (∀ st, run (init n) (evs.take k) = Res.ok st →
      Rep st (entries st) ∧ Good (entries st)) ∧
    (2 ≤ n → ∃ st, run (init n) (evs.take k) = Res.ok st) := by
  obtain ⟨h1, h2⟩ :=
    run_inv (evs.take k) (init n) [] (Rep_init n) (deliverable_take evs _ k hev)
  refine ⟨?_, h2⟩
  intro st hrun
  obtain ⟨_, l, hr, hg, _⟩ := h1 st hrun
  rw [entries_eq hr]
  exact ⟨hr, hg (all_take label_kept evs k hkept) Good_nil⟩

/-- Capacity 2, the nine first events of `repeat_trace`, whose selections read
back their label: the contents are pairwise different. -/
theorem uniqueness_label_kept_example :
    deliverable (init 2) repeat_trace = true ∧ repeat_trace.all label_kept = true ∧
      ∃ st, run (init 2) (repeat_trace.take 9) = Res.ok st ∧
        ((entries st).map Prod.snd).Nodup := by
  refine ⟨by decide, by decide, ?_⟩
  obtain ⟨h1, h2⟩ := uniqueness_label_kept 2 repeat_trace 9 (by decide) (by decide)
  obtain ⟨st, hrun⟩ := h2 (by decide)
  exact ⟨st, hrun, (h1 st hrun).2.1⟩

/-! ## Claims -/

/-- C3, insertion with tail eviction: on a list `l` of at most `hist_size`
entries, `hist_size ≥ 2`, the clipboard-change handler given a non-empty text
`t` that no entry holds returns (the allocations of `history_add` succeeding),
and the new list has the new node holding `t` at its head; when `l` was full
the rest is `l` without its last entry and the length is unchanged, otherwise
the rest is all of `l` and the length grows by one.  Entries are (address,
content) pairs, so the survivors are the same nodes in the same order. -/
theorem copit_callback_inserts_at_head (st : State) (l : List (Ptr × String)) (t : String)
    (hwf : Rep st l) (hsz : (l.length : Int) ≤ st.hist_size) (h2 : 2 ≤ st.hist_size)
    (ht : t ≠ "") (habs : t ∉ l.map Prod.snd) :
    ∃ st1, copit_callback st (some t) Alloc.ok = Res.ok st1 ∧
      st1.hist_size = st.hist_size ∧ Rep st1 (entries st1) ∧
      (entries st1).head? = some (st.mem.length, t) ∧
      entries st1 = (st.mem.length, t) ::
        (if (l.length : Int) = st.hist_size then l.dropLast else l) ∧
      (entries st1).length =
        (if (l.length : Int) = st.hist_size then l.length else l.length + 1) := by
  obtain ⟨st1, h1, h4, h3⟩ := copit_callback_fresh hwf h2 ht habs
  have he := entries_eq h3
  refine ⟨st1, h1, h4, ?_, ?_, ?_⟩
  · rw [he]
    exact h3
  · rw [he]
    rfl
  · by_cases hfull : (l.length : Int) = st.hist_size
    · have hk : l.length = (st.hist_size - 1).toNat + 1 := by omega
      rw [he, take_full_eq_dropLast l _ hk, if_pos hfull, if_pos hfull]
      refine ⟨rfl, ?_⟩
      simp only [List.length_cons, List.length_dropLast]
      omega
    · rw [he, List.take_of_length_le (by omega), if_neg hfull, if_neg hfull]
      exact ⟨rfl, rfl⟩

/-- Witness for C3: capacity 3 holding (c, b, a), reached by copying "a", "b",
"c"; copying "d" gives (d, c, b). -/
theorem copit_callback_inserts_at_head_witness :
    run (init 3) [copy "a", copy "b", copy "c"] = Res.ok st_cba ∧
      Rep st_cba [(2, "c"), (1, "b"), (0, "a")] ∧
      (([(2, "c"), (1, "b"), (0, "a")] : List (Ptr × String)).length : Int) ≤
        st_cba.hist_size ∧
      2 ≤ st_cba.hist_size ∧ "d" ≠ "" ∧
      "d" ∉ ([(2, "c"), (1, "b"), (0, "a")] : List (Ptr × String)).map Prod.snd ∧
      ∃ st1, copit_callback st_cba (some "d") Alloc.ok = Res.ok st1 ∧
        entries st1 = [(3, "d"), (2, "c"), (1, "b")] := by
  refine ⟨by decide, by decide, by decide, by decide, by decide, by decide, ?_⟩
  obtain ⟨st1, h1, _, _, _, hl, _⟩ :=
    copit_callback_inserts_at_head st_cba [(2, "c"), (1, "b"), (0, "a")] "d"
      (by decide) (by decide) (by decide) (by decide) (by decide)
  exact ⟨st1, h1, hl⟩

/-- C5, dedup without promote: on a well-formed list, a clipboard change to a
text that an entry already holds (non-empty or not) returns the state it was
given, for every allocation outcome; so the entries, their order and their
number are unchanged and the entry is not moved to the head. -/
theorem copit_callback_known_text_unchanged (st : State) (l : List (Ptr × String))
    (t : String) (a : Alloc) (hwf : Rep st l) (hp : t ∈ l.map Prod.snd) :
    copit_callback st (some t) a = Res.ok st ∧ entries st = l :=
  ⟨copit_callback_present a hwf hp, entries_eq hwf⟩

/-- Witness for C5: (c, b, a) with a clipboard change to "a" stays (c, b, a). -/
theorem copit_callback_known_text_unchanged_witness :
    Rep st_cba [(2, "c"), (1, "b"), (0, "a")] ∧
      "a" ∈ ([(2, "c"), (1, "b"), (0, "a")] : List (Ptr × String)).map Prod.snd ∧
      copit_callback st_cba (some "a") Alloc.ok = Res.ok st_cba ∧
      entries st_cba = [(2, "c"), (1, "b"), (0, "a")] :=
  ⟨by decide, by decide,
    copit_callback_known_text_unchanged st_cba [(2, "c"), (1, "b"), (0, "a")] "a" Alloc.ok
      (by decide) (by decide)⟩

/-- C9, no-op on unknown promote: on a well-formed list, the selection handler
given a label that no entry holds returns the state it was given (neither
`history_delete` nor `history_add` runs), whatever the allocations and a later
read through the label pointer would give. -/
theorem pastit_callback_unknown_label_unchanged (st : State) (l : List (Ptr × String))
    (z : String) (readback : String) (a : Alloc) (hwf : Rep st l)
    (hz : z ∉ l.map Prod.snd) :
    pastit_callback st z readback a = Res.ok st ∧ entries st = l :=
  ⟨pastit_callback_absent readback a hwf hz, entries_eq hwf⟩

/-- Witness for C9: selecting "z" in (c, b, a). -/
theorem pastit_callback_unknown_label_unchanged_witness :
    Rep st_cba [(2, "c"), (1, "b"), (0, "a")] ∧
      "z" ∉ ([(2, "c"), (1, "b"), (0, "a")] : List (Ptr × String)).map Prod.snd ∧
      pastit_callback st_cba "z" "z" Alloc.ok = Res.ok st_cba ∧
      entries st_cba = [(2, "c"), (1, "b"), (0, "a")] :=
  ⟨by decide, by decide,
    pastit_callback_unknown_label_unchanged st_cba [(2, "c"), (1, "b"), (0, "a")] "z" "z"
      Alloc.ok (by decide) (by decide)⟩

/-- C8, idempotence of clipboard-change handling: on a well-formed list (of at
most `hist_size` entries or longer), `hist_size ≥ 2`, handling the change to a
non-empty text `t` (the allocations of `history_add` succeeding) returns a state
on which handling the change to `t` again, whatever the allocations do, returns
that same state; and when `t` was already held, the first handling changes
nothing. -/
theorem copit_callback_idempotent (st : State) (l : List (Ptr × String)) (t : String)
    (hwf : Rep st l) (h2 : 2 ≤ st.hist_size) (ht : t ≠ "") :
    ∃ st1, copit_callback st (some t) Alloc.ok = Res.ok st1 ∧
      (∀ a, copit_callback st1 (some t) a = Res.ok st1) ∧
      (t ∈ l.map Prod.snd → st1 = st) := by
  by_cases hp : t ∈ l.map Prod.snd
  · exact ⟨st, copit_callback_present Alloc.ok hwf hp,
      fun a => copit_callback_present a hwf hp, fun _ => rfl⟩
  · obtain ⟨st1, h1, _, h3⟩ := copit_callback_fresh hwf h2 ht hp
    refine ⟨st1, h1, fun a => copit_callback_present a h3 ?_, fun h => absurd h hp⟩
    simp

/-- Witness for C8: copying "d" into the full list (c, b, a), twice. -/
theorem copit_callback_idempotent_witness :
    Rep st_cba [(2, "c"), (1, "b"), (0, "a")] ∧
      2 ≤ st_cba.hist_size ∧ "d" ≠ "" ∧
      ∃ st1, copit_callback st_cba (some "d") Alloc.ok = Res.ok st1 ∧
        copit_callback st1 (some "d") Alloc.ok = Res.ok st1 := by
  refine ⟨by decide, by decide, by decide, ?_⟩
  obtain ⟨st1, h1, h2, _⟩ :=
    copit_callback_idempotent st_cba [(2, "c"), (1, "b"), (0, "a")] "d"
      (by decide) (by decide) (by decide)
  exact ⟨st1, h1, h2 Alloc.ok⟩

/-- C4, promote on reselect, at an input where the code departs from it: in
the list (c, b, a) of capacity 3 the text button of "b" is clicked, and the
text that `strdup` reads through the label pointer, after `history_delete` had
the box of that button removed, is empty.  The handler returns the list
("", c, a): "b" is gone and is not at the head. -/
theorem pastit_callback_stale_label_loses_entry :
    Rep st_cba [(2, "c"), (1, "b"), (0, "a")] ∧
      pastit_callback st_cba "b" "" Alloc.ok = Res.ok
        { hist_size := 3
          history := some 3
          mem := [some { content := "a", next := none, prev := some 2 }, none,
                  some { content := "c", next := some 0, prev := some 3 },
                  some { content := "", next := some 2, prev := none }] } ∧
      entries
        { hist_size := 3
          history := some 3
          mem := [some { content := "a", next := none, prev := some 2 }, none,
                  some { content := "c", next := some 0, prev := some 3 },
                  some { content := "", next := some 2, prev := none }] } =
        [(3, ""), (2, "c"), (0, "a")] ∧
      ([(3, ""), (2, "c"), (0, "a")] : List (Ptr × String)).map Prod.snd ≠
        ["b", "c", "a"] := by
  decide

/-- C6, delete then reinsert: on a list `l` of at most `hist_size` entries with
pairwise different contents, `history_delete` of an entry `e` of `l`, wherever
it stands, returns a state whose list is `l` without `e`, one entry shorter;
and the clipboard-change handler given the content of `e` (non-empty, as every
content that `copit_callback` stores is) then returns (the allocations of `history_add` succeeding) a
state whose list is a new node with that content followed by `l` without
`e`. -/
theorem history_delete_then_copit_callback (st : State) (l : List (Ptr × String))
    (e : Ptr × String) (hwf : Rep st l) (hnd : (l.map Prod.snd).Nodup)
    (hsz : (l.length : Int) ≤ st.hist_size) (he : e ∈ l) (hne : e.2 ≠ "") :
    ∃ st1, history_delete st e.1 = Res.ok st1 ∧ st1.hist_size = st.hist_size ∧
      Rep st1 (entries st1) ∧ entries st1 = l.erase e ∧
      (entries st1).length + 1 = l.length ∧
      ∃ st2, copit_callback st1 (some e.2) Alloc.ok = Res.ok st2 ∧
        st2.hist_size = st.hist_size ∧ Rep st2 (entries st2) ∧
        entries st2 = (st1.mem.length, e.2) :: l.erase e := by
  obtain ⟨l1, l2, hl⟩ := List.append_of_mem he
  subst hl
  obtain ⟨p, c⟩ := e
  obtain ⟨st1, hdel, hr, hs, _⟩ := history_delete_seg hwf
  have he1 := entries_eq hr
  have herase := erase_split_eq hnd
  have hc : c ∉ (l1 ++ l2).map Prod.snd := by
    simp only [List.map_append, List.map_cons] at hnd
    obtain ⟨_, h2, h3⟩ := List.nodup_append.mp hnd
    simp only [List.map_append, List.mem_append, not_or]
    exact ⟨fun h => h3 h (List.mem_cons_self _ _), (List.nodup_cons.mp h2).1⟩
  have hroom : ((l1 ++ l2).length : Int) < st1.hist_size := by
    rw [hs]
    simp only [List.length_append, List.length_cons] at hsz ⊢
    push_cast at hsz ⊢
    omega
  obtain ⟨st2, h1, h3, h4⟩ := history_add_room c hr hroom
  have he2 := entries_eq h3
  refine ⟨st1, hdel, hs, ?_, ?_, ?_, st2, ?_, h4.trans hs, ?_, ?_⟩
  · rw [he1]
    exact hr
  · rw [he1, herase]
  · rw [he1]
    simp only [List.length_append, List.length_cons]
    omega
  · rw [copit_callback_absent Alloc.ok hr hne hc, h1]
  · rw [he2]
    exact h3
  · rw [he2, herase]

/-- Witness for C6: removing "b" from (c, b, a) gives (c, a), and copying "b"
again gives (b, c, a). -/
theorem history_delete_then_copit_callback_witness :
    Rep st_cba [(2, "c"), (1, "b"), (0, "a")] ∧
      (([(2, "c"), (1, "b"), (0, "a")] : List (Ptr × String)).map Prod.snd).Nodup ∧
      (([(2, "c"), (1, "b"), (0, "a")] : List (Ptr × String)).length : Int) ≤
        st_cba.hist_size ∧
      ((1, "b") : Ptr × String) ∈ ([(2, "c"), (1, "b"), (0, "a")] : List (Ptr × String)) ∧
      "b" ≠ "" ∧
      ∃ st1, history_delete st_cba 1 = Res.ok st1 ∧
        entries st1 = [(2, "c"), (0, "a")] ∧
        ∃ st2, copit_callback st1 (some "b") Alloc.ok = Res.ok st2 ∧
          entries st2 = [(3, "b"), (2, "c"), (0, "a")] := by
  refine ⟨by decide, by decide, by decide, by decide, by decide, ?_⟩
  obtain ⟨st1, h1, _, _, h4, _, st2, h6, _, _, h9⟩ :=
    history_delete_then_copit_callback st_cba [(2, "c"), (1, "b"), (0, "a")] (1, "b")
      (by decide) (by decide) (by decide) (by decide) (by decide)
  refine ⟨st1, h1, h4, st2, h6, ?_⟩
  rw [h9]
  have hst : Res.ok st1 = history_delete st_cba 1 := h1.symm
  have hval : history_delete st_cba 1 = Res.ok
      { hist_size := 3, history := some 2,
        mem := [some { content := "a", next := none, prev := some 2 }, none,
                some { content := "c", next := some 0, prev := none }] } := by decide
  rw [hval] at hst
  cases hst
  rfl

/-- C10, eviction never dereferences a missing predecessor: on a well-formed
list with `hist_size ≥ 2` the capacity scan of `history_add` returns; when it
stops on a node `h`, that node is the entry at position `hist_size - 1 ≥ 1` of
the list, it is not the node `history` points to, its `prev` is the address of
an allocated node whose `next` is `h`, and the eviction step
`h->prev->next = NULL; history_chunk_free(h)` returns, leaving the entries
before `h`, the head first among them. -/
theorem history_add_eviction_defined (st : State) (l : List (Ptr × String))
    (hwf : Rep st l) (h2 : 2 ≤ st.hist_size) :
    ∃ r, history_add_scan st.mem st.hist_size (st.hist_size - 1).toNat st.history 1 =
        Res.ok r ∧
      ∀ h, r = some h →
        1 ≤ (st.hist_size - 1).toNat ∧
        (∃ c, l[(st.hist_size - 1).toNat]? = some (h, c)) ∧
        st.history ≠ some h ∧
        (∃ nd q ndq, deref st.mem h = Res.ok nd ∧ nd.prev = some q ∧
          deref st.mem q = Res.ok ndq ∧ ndq.next = some h) ∧
        ∃ st1, history_add_evict st h = Res.ok st1 ∧
          Rep st1 (l.take (st.hist_size - 1).toNat) ∧
          entries st1 = l.take (st.hist_size - 1).toNat ∧
          (entries st1).head? = l.head? := by
  have hscan := history_add_scan_seg st.hist_size (st.hist_size - 1).toNat 1 hwf (by omega)
  refine ⟨_, hscan, ?_⟩
  intro h hr
  have hk1 : 1 ≤ (st.hist_size - 1).toNat := by omega
  cases hk : l[(st.hist_size - 1).toNat]? with
  | none =>
    rw [hk] at hr
    cases hr
  | some e =>
    obtain ⟨p, c⟩ := e
    rw [hk] at hr
    have hp : p = h := Option.some.inj hr
    subst hp
    obtain ⟨hlt, hget⟩ := List.getElem?_eq_some_iff.mp hk
    have hsplit : l = l.take (st.hist_size - 1).toNat ++
        (p, c) :: l.drop ((st.hist_size - 1).toNat + 1) := by
      rw [← hget, ← List.drop_eq_getElem_cons hlt, List.take_append_drop]
    have hne : l.take (st.hist_size - 1).toNat ≠ [] := by
      intro h0
      have h1 := congrArg List.length h0
      rw [List.length_take] at h1
      simp only [List.length_nil] at h1
      omega
    have hwf1 := hwf
    rw [hsplit] at hwf1
    obtain ⟨hhead, hpred⟩ := seg_pred hwf1 hne
    obtain ⟨st1, he, hr1, _, _⟩ := history_add_evict_seg hwf1 hne
    refine ⟨hk1, ⟨c, rfl⟩, hhead, hpred, st1, he, hr1, entries_eq hr1, ?_⟩
    rw [entries_eq hr1]
    cases l with
    | nil => simp at hlt
    | cons x xs =>
      obtain ⟨k, hk2⟩ : ∃ k, (st.hist_size - 1).toNat = k + 1 :=
        ⟨(st.hist_size - 1).toNat - 1, by omega⟩
      rw [hk2]
      rfl

/-- Witness for C10: capacity 3 and the full list (c, b, a); the scan stops on
the node of "a", at position 2, whose predecessor is the node of "b". -/
theorem history_add_eviction_defined_witness :
    Rep st_cba [(2, "c"), (1, "b"), (0, "a")] ∧ 2 ≤ st_cba.hist_size ∧
      history_add_scan st_cba.mem st_cba.hist_size (st_cba.hist_size - 1).toNat
        st_cba.history 1 = Res.ok (some 0) ∧
      st_cba.history ≠ some 0 ∧
      ∃ st1, history_add_evict st_cba 0 = Res.ok st1 ∧
        entries st1 = [(2, "c"), (1, "b")] := by
  refine ⟨by decide, by decide, by decide, ?_⟩
  obtain ⟨r, hr, hall⟩ :=
    history_add_eviction_defined st_cba [(2, "c"), (1, "b"), (0, "a")]
      (by decide) (by decide)
  have hr0 : r = some 0 := by
    have h0 : history_add_scan st_cba.mem st_cba.hist_size (st_cba.hist_size - 1).toNat
        st_cba.history 1 = Res.ok (some 0) := by decide
    rw [h0] at hr
    cases hr
    rfl
  obtain ⟨_, _, h3, _, st1, h5, _, h7, _⟩ := hall 0 hr0
  exact ⟨h3, st1, h5, h7⟩

/-- C1, capacity invariant: with `hist_size = n ≥ 2` (so for every `n` in
[2, 1024]) and the empty history, for every finite sequence of clipboard-change,
selection and deletion events that can occur (a deletion names a node that is
in the list when it arrives), every allocation outcome and every text read
back through a label pointer, the handlers return after each event (`k` events handled, for every `k`), the list is well formed
and it has at most `n` entries. -/
theorem capacity_invariant (n : Int) (evs : List Event) (k : Nat) (hmin : 2 ≤ n)
    (hev : deliverable (init n) evs = true) :
    ∃ st, run (init n) (evs.take k) = Res.ok st ∧ st.hist_size = n ∧
      Rep st (entries st) ∧ ((entries st).length : Int) ≤ n := by
  obtain ⟨h1, h2⟩ :=
    run_inv (evs.take k) (init n) [] (Rep_init n) (deliverable_take evs _ k hev)
  obtain ⟨st, hrun⟩ := h2 hmin
  obtain ⟨hs, l, hr, _, hl⟩ := h1 st hrun
  have he := entries_eq hr
  refine ⟨st, hrun, hs, ?_, ?_⟩
  · rw [he]
    exact hr
  · rw [he]
    exact hl hmin (by simp only [List.length_nil]; exact le_trans (by decide) hmin)

/-- Witness for C1: capacity 3, after the first twelve events of
`busy_trace`. -/
theorem capacity_invariant_witness :
    (2 : Int) ≤ 3 ∧ deliverable (init 3) busy_trace = true ∧
      ∃ st, run (init 3) (busy_trace.take 12) = Res.ok st ∧ st.hist_size = 3 ∧
        Rep st (entries st) ∧ ((entries st).length : Int) ≤ 3 :=
  ⟨by decide, by decide, capacity_invariant 3 busy_trace 12 (by decide) (by decide)⟩

/-- C2, uniqueness invariant, at inputs where the code departs from it:
capacity 3, the copies "a", "b", "c", then a click on the text button of "b"
where the text that `strdup` reads through the label pointer, after
`history_delete` had the box of that button removed, is "c".  The events can
occur, the handlers return, and the list reached is (c, c, a): two entries
hold "c".  Likewise two clicks that each read back an empty text leave two
entries with empty content. -/
theorem stale_label_duplicates_content :
    deliverable (init 3) stale_label_trace = true ∧
      run (init 3) stale_label_trace = Res.ok
        { hist_size := 3
          history := some 3
          mem := [some { content := "a", next := none, prev := some 2 }, none,
                  some { content := "c", next := some 0, prev := some 3 },
                  some { content := "c", next := some 2, prev := none }] } ∧
      (entries
        { hist_size := 3
          history := some 3
          mem := [some { content := "a", next := none, prev := some 2 }, none,
                  some { content := "c", next := some 0, prev := some 3 },
                  some { content := "c", next := some 2, prev := none }] }).map Prod.snd =
        ["c", "c", "a"] ∧
      ¬ (["c", "c", "a"] : List String).Nodup ∧
      deliverable (init 3) stale_empty_trace = true ∧
      run (init 3) stale_empty_trace = Res.ok
        { hist_size := 3
          history := some 4
          mem := [none, none,
                  some { content := "c", next := none, prev := some 3 },
                  some { content := "", next := some 2, prev := some 4 },
                  some { content := "", next := some 3, prev := none }] } ∧
      (entries
        { hist_size := 3
          history := some 4
          mem := [none, none,
                  some { content := "c", next := none, prev := some 3 },
                  some { content := "", next := some 2, prev := some 4 },
                  some { content := "", next := some 3, prev := none }] }).map Prod.snd =
        ["", "", "c"] ∧
      ¬ (["", "", "c"] : List String).Nodup := by
  decide

/-- C7, capacity validation, at inputs where the code departs from it: with a
64-bit `long`, the argument `-s 4294967298` (the decimal integer 2^32 + 2,
outside [2, 1024]) is accepted: `parse_program_options` returns with
`hist_size = 2` instead of ending the process with status 1.  `strtol` returns
the full value, and `(int)` truncates it before the range check.  The same
happens for `-s -4294967294`. -/
theorem parse_program_options_wraps_history_size :
    strtol 64 "4294967298".toList = (4294967298, []) ∧
      long_to_int 4294967298 = 2 ∧
      parse_program_options 64 [Opt.s "4294967298"] =
        Outcome.returns { Config.default with hist_size := 2 } ∧
      ¬ (HISTORY_MIN ≤ (4294967298 : Int) ∧ (4294967298 : Int) ≤ HISTORY_MAX) ∧
      parse_program_options 64 [Opt.s "-4294967294"] =
        Outcome.returns { Config.default with hist_size := 2 } := by
  decide

end Copit
